import Mathlib

/-!
Verification of the room/player coordinator, payout calculator and event
broker of the smu-investment-game backend
(`backend/app/services/game_service.py`, `backend/app/services/events.py`,
`backend/app/models/game.py`, `backend/app/schemas/game.py`).

Python floats are modelled as exact rationals and Python's `round(x, 2)`
(round-half-to-even) as `round2` below.  Database rows are modelled as lists
kept in insertion order, which matches the `order_by(joined_at)` queries of
the source.  HTTP errors raised via `HTTPException(status_code, detail)` are
modelled by the `HErr` structure; the service operations return `Except`,
which is faithful because every `raise` in the source happens before any
mutation is committed.
-/

set_option maxHeartbeats 1000000

namespace InvestGame

/-- Round-half-to-even to the nearest integer, the rounding mode of Python's
built-in `round`. -/
def rhalfEven (x : ℚ) : ℤ :=
  if x - ⌊x⌋ < 1/2 then ⌊x⌋
  else if 1/2 < x - ⌊x⌋ then ⌊x⌋ + 1
  else if ⌊x⌋ % 2 = 0 then ⌊x⌋ else ⌊x⌋ + 1

/-- Python's `round(x, 2)`: round-half-to-even at two decimal places. -/
def round2 (x : ℚ) : ℚ := (rhalfEven (x * 100) : ℚ) / 100

/-- An `HTTPException(status_code, detail)` raised by the service layer. -/
structure HErr where
  statusCode : ℕ
  detail : String
deriving DecidableEq, Repr

/-- A row of the `players` table (`app/models/game.py`).  Player ids are
modelled as naturals, timestamps as naturals drawn from a logical clock. -/
structure Player where
  pid : ℕ
  roomCode : String
  displayName : String
  allocA : Option ℤ
  allocB : Option ℤ
  payout : Option ℚ
  submittedAt : Option ℕ
deriving DecidableEq, Repr

/-- The `PlayerPayout` schema (`app/schemas/game.py`). -/
structure PlayerPayout where
  player_id : ℕ
  display_name : String
  payout : ℚ
deriving DecidableEq, Repr

/-- The `GameResult` schema (`app/schemas/game.py`). -/
structure GameResult where
  total_b_pool : ℚ
  boosted_pool : ℚ
  players : List PlayerPayout
deriving DecidableEq, Repr

/-- `total_b = sum(int(p.allocation_b or 0) for p in players)`. -/
def totalB (ps : List Player) : ℤ := (ps.map (fun p => p.allocB.getD 0)).sum

/-- `boosted_pool = round(total_b * 1.5, 2)`. -/
def boostedPool (ps : List Player) : ℚ := round2 ((totalB ps : ℚ) * (3/2))

/-- `share = boosted_pool / len(players)`. -/
def share (ps : List Player) : ℚ := boostedPool ps / (ps.length : ℚ)

/-- The `GameResult` built by the non-failing branch of
`GameService.calculate_payouts`. -/
def payoutResult (ps : List Player) : GameResult :=
  { total_b_pool := ((totalB ps : ℤ) : ℚ)
  , boosted_pool := boostedPool ps
  , players := ps.map (fun p =>
      { player_id := p.pid
      , display_name := p.displayName
      , payout := round2 ((p.allocA.getD 0 : ℚ) + share ps) }) }

/-- `GameService.calculate_payouts` (`game_service.py`, lines 159-181). -/
def calculate_payouts (ps : List Player) : Except HErr GameResult :=
  if ps = [] then .error ⟨400, "No players to settle"⟩
  else if ∃ p ∈ ps, p.allocA = none ∨ p.allocB = none then
    .error ⟨400, "Missing allocations"⟩
  else .ok (payoutResult ps)

/-- Sum of the `payout` fields of a list of payout records. -/
def sumPayouts (l : List PlayerPayout) : ℚ := (l.map (fun r => r.payout)).sum

/-- Sum of the `allocation_a` fields, as a rational. -/
def sumA (ps : List Player) : ℚ := (ps.map (fun p => ((p.allocA.getD 0 : ℤ) : ℚ))).sum

/-! ### Coordinator data model (`GameService`) -/

def STATUS_WAITING : String := "waiting"
def STATUS_READY : String := "ready"
def STATUS_COMPLETED : String := "completed"

/-- A row of the `rooms` table (`app/models/game.py`). -/
structure Room where
  code : String
  maxPlayers : ℕ
  status : String
deriving DecidableEq, Repr

/-- The state of the backing store, plus a logical clock for
`datetime.now()` timestamps and the log of performed finalizations (which
models "payout computation performed" for the effectively-once property). -/
structure GameState where
  rooms : List Room
  players : List Player
  nextPid : ℕ
  clock : ℕ
  finalized : List String
deriving DecidableEq, Repr

/-- Players of a room, in row (= join) order: the
`select(Player).where(room_code == code)` query. -/
def roomPlayers (c : String) : List Player → List Player
  | [] => []
  | p :: t => if p.roomCode = c then p :: roomPlayers c t else roomPlayers c t

/-- `GameService._count_players`. -/
def countIn (c : String) : List Player → ℕ
  | [] => 0
  | p :: t => (if p.roomCode = c then 1 else 0) + countIn c t

/-- Count of a room's players with non-null `submitted_at`
(the `func.count()` query of `_all_players_submitted`). -/
def countSubIn (c : String) : List Player → ℕ
  | [] => 0
  | p :: t => (if p.roomCode = c ∧ p.submittedAt ≠ none then 1 else 0) + countSubIn c t

def countPlayers (s : GameState) (c : String) : ℕ := countIn c s.players

/-- `db.get(Player, player_id)`: primary-key lookup. -/
def findPid (i : ℕ) : List Player → Option Player
  | [] => none
  | p :: t => if p.pid = i then some p else findPid i t

/-- `db.get(Room, code)`: primary-key lookup. -/
def findRoom (c : String) : List Room → Option Room
  | [] => none
  | r :: t => if r.code = c then some r else findRoom c t

/-- `next(p for p in players if p.id == payout.player_id)`, seen from the
player's side: the payout record carrying this player's id. -/
def findPayout (i : ℕ) : List PlayerPayout → Option PlayerPayout
  | [] => none
  | r :: t => if r.player_id = i then some r else findPayout i t

/-- `db.delete(player)`. -/
def removePid (i : ℕ) : List Player → List Player
  | [] => []
  | p :: t => if p.pid = i then removePid i t else p :: removePid i t

/-- Status write for the room with the given code, identity elsewhere. -/
def updStatus (c st : String) (r : Room) : Room :=
  if r.code = c then { r with status := st } else r

/-- Update a room's `status` column. -/
def setStatus (s : GameState) (c st : String) : GameState :=
  { s with rooms := s.rooms.map (updStatus c st) }

/-- `GameService.create_room`: the generated code is passed in; the caller
(`Step.create`) carries the freshness guarantee of `_unique_room_code` and
the `RoomCreate` schema bound `2 <= max_players <= 4`. -/
def create_room (s : GameState) (code : String) (maxPlayers : ℕ) : GameState × Room :=
  ({ s with rooms := s.rooms ++ [{ code := code, maxPlayers := maxPlayers, status := STATUS_WAITING }] },
   { code := code, maxPlayers := maxPlayers, status := STATUS_WAITING })

/-- The `Player` row inserted by `join_room`. -/
def newPlayer (s : GameState) (code name : String) : Player :=
  { pid := s.nextPid, roomCode := code, displayName := name
  , allocA := none, allocB := none, payout := none, submittedAt := none }

/-- `GameService.join_room` (`game_service.py`, lines 43-59). -/
def join_room (s : GameState) (code name : String) : Except HErr (GameState × Player) :=
  match findRoom code s.rooms with
  | none => .error ⟨404, "Room not found"⟩
  | some room =>
    if room.maxPlayers ≤ countPlayers s code then .error ⟨400, "Room is full"⟩
    else
      if countPlayers s code + 1 = room.maxPlayers then
        .ok (setStatus { s with players := s.players ++ [newPlayer s code name],
                                nextPid := s.nextPid + 1 } code STATUS_READY,
             newPlayer s code name)
      else
        .ok ({ s with players := s.players ++ [newPlayer s code name],
                      nextPid := s.nextPid + 1 },
             newPlayer s code name)

/-- Payout write for one player row. -/
def payMark (res : GameResult) (p : Player) : Player :=
  match findPayout p.pid res.players with
  | some r => { p with payout := some r.payout }
  | none => p

/-- The payout-writing loop of `_finalize_room`. -/
def applyPayouts (res : GameResult) (ps : List Player) : List Player :=
  ps.map (payMark res)

/-- `GameService._all_players_submitted` (`game_service.py`, lines 139-148). -/
def all_players_submitted (s : GameState) (room : Room) : Bool :=
  if countPlayers s room.code < room.maxPlayers ∨ countPlayers s room.code < 2 then false
  else countSubIn room.code s.players = countPlayers s room.code

/-- `GameService._finalize_room` (`game_service.py`, lines 112-128). -/
def finalize_room (s : GameState) (room : Room) : Except HErr (GameState × GameResult) :=
  match calculate_payouts (roomPlayers room.code s.players) with
  | .error e => .error e
  | .ok result =>
    .ok (setStatus { s with players := applyPayouts result s.players
                          , finalized := s.finalized ++ [room.code] }
           room.code STATUS_COMPLETED,
         result)

/-- Allocation write for the player row with the given id, identity
elsewhere. -/
def submitMark (i : ℕ) (a b : ℤ) (t : ℕ) (p : Player) : Player :=
  if p.pid = i then { p with allocA := some a, allocB := some b, submittedAt := some t } else p

/-- The committed player mutation of `submit_allocation`. -/
def submitUpdate (s : GameState) (i : ℕ) (a b : ℤ) : GameState :=
  { s with
    players := s.players.map (submitMark i a b s.clock),
    clock := s.clock + 1 }

/-- `GameService.submit_allocation` (`game_service.py`, lines 61-90). -/
def submit_allocation (s : GameState) (code : String) (pid : ℕ) (a b : ℤ) :
    Except HErr (GameState × Player × Option GameResult) :=
  if a + b ≠ 100 then .error ⟨422, "A + B must equal 100"⟩
  else match findPid pid s.players with
  | none => .error ⟨404, "Player not found"⟩
  | some player =>
    if player.roomCode ≠ code then .error ⟨404, "Player not found"⟩
    else match findRoom code s.rooms with
    | none => .error ⟨404, "Room not found"⟩
    | some room =>
      if countPlayers s code < 2 then .error ⟨400, "Need at least two players"⟩
      else if player.submittedAt ≠ none then .error ⟨400, "Allocation already submitted"⟩
      else
        if all_players_submitted (submitUpdate s pid a b) room then
          match finalize_room (submitUpdate s pid a b) room with
          | .error e => .error e
          | .ok (s2, result) =>
            .ok (s2,
                 { player with allocA := some a, allocB := some b, submittedAt := some s.clock },
                 some result)
        else
          .ok (submitUpdate s pid a b,
               { player with allocA := some a, allocB := some b, submittedAt := some s.clock },
               none)

/-- `GameService.leave_room` (`game_service.py`, lines 92-110). -/
def leave_room (s : GameState) (code : String) (pid : ℕ) :
    Except HErr (GameState × Player × Room) :=
  match findPid pid s.players with
  | none => .error ⟨404, "Player not found"⟩
  | some player =>
    if player.roomCode ≠ code then .error ⟨404, "Player not found"⟩
    else match findRoom code s.rooms with
    | none => .error ⟨404, "Room not found"⟩
    | some room =>
      if room.status = STATUS_COMPLETED then .error ⟨400, "Game already completed"⟩
      else
        if countIn code (removePid pid s.players) < room.maxPlayers ∧ room.status = STATUS_READY then
          .ok (setStatus { s with players := removePid pid s.players } code STATUS_WAITING,
               player, room)
        else
          .ok ({ s with players := removePid pid s.players }, player, room)

/-- The empty store at process start. -/
def initState : GameState :=
  { rooms := [], players := [], nextPid := 0, clock := 0, finalized := [] }

/-- How many times the finalize path ran for a room code. -/
def finCount (s : GameState) (c : String) : ℕ := s.finalized.count c

/-- One coordinator operation committing against the store.  `create`
carries the `RoomCreate` schema validation (`2 <= max_players <= 4`) and the
freshness of `_unique_room_code`; the other constructors are exactly the
successful service calls (failed calls raise before committing, leaving the
state unchanged). -/
inductive Step : GameState → GameState → Prop
  | create (s : GameState) (code : String) (m : ℕ) :
      2 ≤ m → m ≤ 4 → (∀ r ∈ s.rooms, r.code ≠ code) →
      Step s (create_room s code m).1
  | join (s : GameState) (code name : String) (s' : GameState) (p : Player) :
      join_room s code name = .ok (s', p) → Step s s'
  | submit (s : GameState) (code : String) (pid : ℕ) (a b : ℤ)
      (s' : GameState) (p : Player) (res : Option GameResult) :
      submit_allocation s code pid a b = .ok (s', p, res) → Step s s'
  | leave (s : GameState) (code : String) (pid : ℕ)
      (s' : GameState) (out : Player × Room) :
      leave_room s code pid = .ok (s', out) → Step s s'

/-- States reachable from the empty store by coordinator operations. -/
inductive Reachable : GameState → Prop
  | init : Reachable initState
  | step {s s' : GameState} : Reachable s → Step s s' → Reachable s'

/-! ### Event broker (`RoomEventBroker`, `app/services/events.py`) -/

/-- One live subscription: its registration id, room code, and pending
queue (an unbounded `asyncio.Queue`, oldest message first). -/
structure Subscription where
  sid : ℕ
  code : String
  queue : List String
deriving DecidableEq, Repr

/-- The broker's subscriber registry. -/
structure BrokerState where
  subs : List Subscription
  nextSid : ℕ
deriving DecidableEq, Repr

/-- `RoomEventBroker.publish` (`events.py`, lines 16-21): put the message on
the queue of every subscription currently registered for the room code. -/
def publish (c m : String) (s : BrokerState) : BrokerState :=
  { s with subs := s.subs.map (fun q =>
      if q.code = c then { q with queue := q.queue ++ [m] } else q) }

/-- The registration step of `RoomEventBroker.subscribe` (`events.py`,
lines 23-37): add a fresh empty queue for the room code. -/
def subscribe (c : String) (s : BrokerState) : BrokerState :=
  { subs := s.subs ++ [{ sid := s.nextSid, code := c, queue := [] }]
  , nextSid := s.nextSid + 1 }

/-- A broker operation, as quantified by the claim: a subscription or a
publish. -/
inductive BOp where
  | sub (c : String)
  | pub (c m : String)
deriving DecidableEq, Repr

/-- Run a sequence of broker operations. -/
def runOps (s : BrokerState) : List BOp → BrokerState
  | [] => s
  | BOp.sub c :: rest => runOps (subscribe c s) rest
  | BOp.pub c m :: rest => runOps (publish c m s) rest

/-- The messages published to room code `c` by a sequence of operations, in
issue order. -/
def pubsFor (c : String) : List BOp → List String
  | [] => []
  | BOp.sub _ :: rest => pubsFor c rest
  | BOp.pub c2 m :: rest => (if c2 = c then [m] else []) ++ pubsFor c rest

/-- The subscriptions a sequence of operations creates, starting from
registration id `n`, with the queue each one should end up with. -/
def newSubs (n : ℕ) : List BOp → List Subscription
  | [] => []
  | BOp.sub c :: rest => { sid := n, code := c, queue := pubsFor c rest } :: newSubs (n + 1) rest
  | BOp.pub _ _ :: rest => newSubs n rest

/-- Number of subscribe operations in a sequence. -/
def subCount : List BOp → ℕ
  | [] => 0
  | BOp.sub _ :: rest => subCount rest + 1
  | BOp.pub _ _ :: rest => subCount rest

/-- The broker at process start. -/
def initBroker : BrokerState := { subs := [], nextSid := 0 }

/-- The inductive invariant of the coordinator state machine: row keys are
unique, players reference existing rooms, room capacity and the
status/finalization bookkeeping are consistent. -/
structure Inv (s : GameState) : Prop where
  roomsNodup : (s.rooms.map Room.code).Nodup
  pidsNodup : (s.players.map Player.pid).Nodup
  pidsLt : ∀ p ∈ s.players, p.pid < s.nextPid
  fk : ∀ p ∈ s.players, ∃ r ∈ s.rooms, r.code = p.roomCode
  maxLB : ∀ r ∈ s.rooms, 2 ≤ r.maxPlayers
  capacity : ∀ r ∈ s.rooms, countPlayers s r.code ≤ r.maxPlayers
  readyCount : ∀ r ∈ s.rooms, r.status = STATUS_READY → countPlayers s r.code = r.maxPlayers
  finOnce : ∀ c : String, finCount s c ≤ 1
  statusCompleted : ∀ r ∈ s.rooms, (r.status = STATUS_COMPLETED ↔ 1 ≤ finCount s r.code)
  finHasRoom : ∀ c : String, 1 ≤ finCount s c → ∃ r ∈ s.rooms, r.code = c
  completedFull : ∀ r ∈ s.rooms, r.status = STATUS_COMPLETED →
    countPlayers s r.code = r.maxPlayers ∧
    ∀ p ∈ s.players, p.roomCode = r.code → p.submittedAt ≠ none

/-- Witness scenario: a two-player room `"R1"`, freshly created. -/
def sW1 : GameState := (create_room initState "R1" 2).1

/-- Witness scenario: `"alice"` has joined `"R1"`. -/
def sW2 : GameState :=
  match join_room sW1 "R1" "alice" with
  | .ok (s, _) => s
  | .error _ => sW1

/-- Witness scenario: `"bob"` has joined `"R1"`, which is now ready. -/
def sW3 : GameState :=
  match join_room sW2 "R1" "bob" with
  | .ok (s, _) => s
  | .error _ => sW2

/-- Witness scenario: `"alice"` (player 0) has submitted `(60, 40)`. -/
def sW4 : GameState :=
  match submit_allocation sW3 "R1" 0 60 40 with
  | .ok (s, _, _) => s
  | .error _ => sW3

/-- Witness scenario: `"bob"` (player 1) has submitted `(30, 70)`; the room
finalized and is completed. -/
def sW5 : GameState :=
  match submit_allocation sW4 "R1" 1 30 70 with
  | .ok (s, _, _) => s
  | .error _ => sW4

/-- The updated player returned by the final, finalizing submission. -/
def pW5 : Player :=
  match submit_allocation sW4 "R1" 1 30 70 with
  | .ok (_, p, _) => p
  | .error _ => newPlayer sW4 "R1" "bob"

/-- The game result returned by the final, finalizing submission. -/
def resW5 : GameResult :=
  match submit_allocation sW4 "R1" 1 30 70 with
  | .ok (_, _, some r) => r
  | _ => { total_b_pool := 0, boosted_pool := 0, players := [] }

/-- Concrete scenario 1 of the spec: two players with allocations
`(100, 0)` and `(0, 100)`. -/
def psW : List Player :=
  [ { pid := 10, roomCode := "ROOM01", displayName := "alice"
    , allocA := some 100, allocB := some 0, payout := none, submittedAt := some 3 }
  , { pid := 11, roomCode := "ROOM01", displayName := "bob"
    , allocA := some 0, allocB := some 100, payout := none, submittedAt := some 4 } ]

/-! ### Rounding lemmas -/

theorem rhalfEven_abs_le (x : ℚ) : |(rhalfEven x : ℚ) - x| ≤ 1/2 := by
  have h0 : ((⌊x⌋ : ℤ) : ℚ) ≤ x := Int.floor_le x
  have h1 : x < ⌊x⌋ + 1 := Int.lt_floor_add_one x
  unfold rhalfEven
  split_ifs with hl hg he <;> rw [abs_le] <;> push_cast <;> constructor <;> linarith

theorem round2_abs_le (x : ℚ) : |round2 x - x| ≤ 1/200 := by
  have h := rhalfEven_abs_le (x * 100)
  rw [abs_le] at h ⊢
  unfold round2
  constructor <;> [linarith [h.1]; linarith [h.2]]

theorem sum_round2_err (l : List ℚ) :
    |(l.map round2).sum - l.sum| ≤ (l.length : ℚ) * (1/200) := by
  induction l with
  | nil => simp
  | cons x t ih =>
    have hx := round2_abs_le x
    simp only [List.map_cons, List.sum_cons, List.length_cons]
    have habs : |round2 x + (t.map round2).sum - (x + t.sum)|
        ≤ |round2 x - x| + |(t.map round2).sum - t.sum| := by
      have hsplit : round2 x + (t.map round2).sum - (x + t.sum)
          = (round2 x - x) + ((t.map round2).sum - t.sum) := by ring
      rw [hsplit]
      exact abs_add _ _
    have hcast : ((t.length + 1 : ℕ) : ℚ) = (t.length : ℚ) + 1 := by push_cast; ring
    rw [hcast]
    calc |round2 x + (t.map round2).sum - (x + t.sum)|
        ≤ |round2 x - x| + |(t.map round2).sum - t.sum| := habs
      _ ≤ 1/200 + (t.length : ℚ) * (1/200) := by linarith
      _ = ((t.length : ℚ) + 1) * (1/200) := by ring

theorem sum_map_add_const (ps : List Player) (f : Player → ℚ) (c : ℚ) :
    (ps.map (fun p => f p + c)).sum = (ps.map f).sum + (ps.length : ℚ) * c := by
  induction ps with
  | nil => simp
  | cons p t ih =>
    simp only [List.map_cons, List.sum_cons, List.length_cons, ih]
    push_cast
    ring

/-! ### Payout calculator: claims C1, C5, C8 -/

/-- C1: for every non-empty list of players in which every player has both
allocation fields set, `calculate_payouts` succeeds, its `boosted_pool` is
the integer sum of `allocation_b` times 1.5 rounded to 2 decimal places, and
it returns one payout record per player, in input order, whose payout is
`round(allocation_a + boosted_pool / count(players), 2)`. -/
theorem c1_payout_formula (ps : List Player)
    (hne : ps ≠ [])
    (hall : ∀ p ∈ ps, p.allocA ≠ none ∧ p.allocB ≠ none) :
    ∃ res, calculate_payouts ps = .ok res ∧
      res.boosted_pool = round2 ((totalB ps : ℚ) * (3/2)) ∧
      res.players = ps.map (fun p =>
        { player_id := p.pid
        , display_name := p.displayName
        , payout := round2 ((p.allocA.getD 0 : ℚ) + res.boosted_pool / (ps.length : ℚ)) }) := by
  have h2 : ¬ ∃ p ∈ ps, p.allocA = none ∨ p.allocB = none := by
    rintro ⟨p, hp, h⟩
    rcases h with h | h
    · exact (hall p hp).1 h
    · exact (hall p hp).2 h
  refine ⟨payoutResult ps, ?_, rfl, rfl⟩
  unfold calculate_payouts
  rw [if_neg hne, if_neg h2]

/-- Witness for C1 at the spec's concrete scenario 1. -/
theorem c1_payout_formula_witness :
    ∃ res, calculate_payouts psW = .ok res ∧
      res.boosted_pool = round2 ((totalB psW : ℚ) * (3/2)) ∧
      res.players = psW.map (fun p =>
        { player_id := p.pid
        , display_name := p.displayName
        , payout := round2 ((p.allocA.getD 0 : ℚ) + res.boosted_pool / (psW.length : ℚ)) }) :=
  c1_payout_formula psW (by decide) (by decide)

/-- C5: for every non-empty list of players whose allocation pairs sum to
100, the computed payouts sum to `sum(allocation_a) + boosted_pool` up to
the rounding tolerance of half a cent per player, and the boosted pool is
`round(total_b_pool * 1.5, 2)`. -/
theorem c5_payout_sum_property (ps : List Player) (hne : ps ≠ [])
    (halloc : ∀ p ∈ ps, ∃ a b : ℤ, p.allocA = some a ∧ p.allocB = some b ∧ a + b = 100) :
    ∃ res, calculate_payouts ps = .ok res ∧
      res.boosted_pool = round2 ((totalB ps : ℚ) * (3/2)) ∧
      |sumPayouts res.players - (sumA ps + res.boosted_pool)| ≤ (ps.length : ℚ) * (1/200) := by
  have h2 : ¬ ∃ p ∈ ps, p.allocA = none ∨ p.allocB = none := by
    rintro ⟨p, hp, h⟩
    obtain ⟨a, b, ha, hb, _⟩ := halloc p hp
    rcases h with h | h
    · rw [ha] at h; exact Option.noConfusion h
    · rw [hb] at h; exact Option.noConfusion h
  refine ⟨payoutResult ps, ?_, rfl, ?_⟩
  · unfold calculate_payouts
    rw [if_neg hne, if_neg h2]
  · have hlen : (ps.length : ℚ) ≠ 0 := by
      have hl : ps.length ≠ 0 := by
        cases ps with
        | nil => exact absurd rfl hne
        | cons a t => simp
      exact_mod_cast hl
    have hmap : sumPayouts (payoutResult ps).players
        = ((ps.map (fun p => (p.allocA.getD 0 : ℚ) + share ps)).map round2).sum := by
      unfold sumPayouts payoutResult
      rw [List.map_map, List.map_map]
      rfl
    have hsum : (ps.map (fun p => (p.allocA.getD 0 : ℚ) + share ps)).sum
        = sumA ps + (ps.length : ℚ) * share ps :=
      sum_map_add_const ps _ _
    have hshare : (ps.length : ℚ) * share ps = boostedPool ps := by
      unfold share
      field_simp
    have herr := sum_round2_err (ps.map (fun p => (p.allocA.getD 0 : ℚ) + share ps))
    rw [List.length_map] at herr
    rw [hsum, hshare] at herr
    rw [hmap]
    exact herr

/-- Witness for C5 at the spec's concrete scenario 1. -/
theorem c5_payout_sum_property_witness :
    ∃ res, calculate_payouts psW = .ok res ∧
      res.boosted_pool = round2 ((totalB psW : ℚ) * (3/2)) ∧
      |sumPayouts res.players - (sumA psW + res.boosted_pool)| ≤ (psW.length : ℚ) * (1/200) :=
  c5_payout_sum_property psW (by decide) (by
    intro p hp
    simp only [psW, List.mem_cons, List.mem_singleton, List.not_mem_nil, or_false] at hp
    rcases hp with rfl | rfl
    · exact ⟨100, 0, rfl, rfl, by decide⟩
    · exact ⟨0, 100, rfl, rfl, by decide⟩)

/-- C8: `calculate_payouts` fails (with the defensive-precondition error the
spec calls Validation) if and only if the player list is empty or some
player has a null allocation field, and on such inputs returns no result. -/
theorem c8_payout_validation (ps : List Player) :
    (∃ e, calculate_payouts ps = .error e)
      ↔ (ps = [] ∨ ∃ p ∈ ps, p.allocA = none ∨ p.allocB = none) := by
  unfold calculate_payouts
  split_ifs with h1 h2
  · exact iff_of_true ⟨_, rfl⟩ (Or.inl h1)
  · exact iff_of_true ⟨_, rfl⟩ (Or.inr h2)
  · apply iff_of_false
    · rintro ⟨e, he⟩
      simp at he
    · rintro (h | h)
      · exact h1 h
      · exact h2 h

/-! ### Event broker: claim C9 -/

theorem runOps_spec (ops : List BOp) : ∀ s : BrokerState,
    (runOps s ops).subs
      = s.subs.map (fun q => { q with queue := q.queue ++ pubsFor q.code ops })
        ++ newSubs s.nextSid ops := by
  induction ops with
  | nil =>
    intro s
    simp [runOps, pubsFor, newSubs]
  | cons op rest ih =>
    intro s
    cases op with
    | sub c =>
      show (runOps (subscribe c s) rest).subs = _
      rw [ih (subscribe c s)]
      simp only [subscribe, newSubs, pubsFor, List.map_append, List.map_cons, List.map_nil,
        List.append_assoc, List.nil_append, List.cons_append, List.append_nil]
    | pub c m =>
      show (runOps (publish c m s) rest).subs = _
      rw [ih (publish c m s)]
      simp only [publish, newSubs, pubsFor, List.map_map]
      congr 1
      apply List.map_congr_left
      intro q _
      by_cases hq : q.code = c
      · simp [Function.comp, hq, List.append_assoc]
      · have hq2 : ¬ c = q.code := fun h => hq h.symm
        simp [Function.comp, hq, hq2]

theorem newSubs_sid_ge (ops : List BOp) : ∀ (n : ℕ) (q : Subscription),
    q ∈ newSubs n ops → n ≤ q.sid := by
  induction ops with
  | nil =>
    intro n q h
    simp [newSubs] at h
  | cons op rest ih =>
    intro n q h
    cases op with
    | sub c =>
      simp only [newSubs, List.mem_cons] at h
      rcases h with h | h
      · subst h; exact le_refl n
      · exact Nat.le_of_succ_le (ih (n + 1) q h)
    | pub c m =>
      exact ih n q h

theorem newSubs_filter_at (pre : List BOp) (c : String) (post : List BOp) : ∀ n : ℕ,
    (newSubs n (pre ++ BOp.sub c :: post)).filter (fun q => q.sid = n + subCount pre)
      = [{ sid := n + subCount pre, code := c, queue := pubsFor c post }] := by
  induction pre with
  | nil =>
    intro n
    have htail : (newSubs (n + 1) post).filter (fun q => q.sid = n + subCount ([] : List BOp)) = [] := by
      rw [List.filter_eq_nil_iff]
      intro q hq
      have hge := newSubs_sid_ge post (n + 1) q hq
      simp [subCount]
      omega
    rw [List.nil_append]
    show ((⟨n, c, pubsFor c post⟩ : Subscription) :: newSubs (n + 1) post).filter _ = _
    rw [List.filter_cons_of_pos (by simp [subCount])]
    rw [htail]
    simp [subCount]
  | cons op pre ih =>
    intro n
    cases op with
    | pub c2 m =>
      rw [List.cons_append]
      show (newSubs n (pre ++ BOp.sub c :: post)).filter _ = _
      exact ih n
    | sub c2 =>
      rw [List.cons_append]
      show ((⟨n, c2, pubsFor c2 (pre ++ BOp.sub c :: post)⟩ : Subscription)
              :: newSubs (n + 1) (pre ++ BOp.sub c :: post)).filter
            (fun q => q.sid = n + subCount (BOp.sub c2 :: pre)) = _
      rw [List.filter_cons_of_neg (by simp [subCount])]
      have harith : n + subCount (BOp.sub c2 :: pre) = (n + 1) + subCount pre := by
        simp [subCount]
        omega
      simp only [harith]
      exact ih (n + 1)

/-- C9: over any sequence of subscribe and publish operations from the
start state, the subscription created at a given point holds exactly the
messages published to its room code after its registration, each delivered
once and in publish order; and a publish with no subscriber for the code is
a no-op on the broker state. -/
theorem c9_broker_delivery :
    (∀ (pre : List BOp) (c : String) (post : List BOp),
        ((runOps initBroker (pre ++ BOp.sub c :: post)).subs.filter
            (fun q => q.sid = subCount pre))
          = [{ sid := subCount pre, code := c, queue := pubsFor c post }])
    ∧ (∀ (s : BrokerState) (c m : String),
        (∀ q ∈ s.subs, q.code ≠ c) → publish c m s = s) := by
  constructor
  · intro pre c post
    rw [runOps_spec (pre ++ BOp.sub c :: post) initBroker]
    have h0 := newSubs_filter_at pre c post 0
    simp only [Nat.zero_add] at h0
    simpa [initBroker] using h0
  · intro s c m h
    unfold publish
    have hmap : s.subs.map (fun q => if q.code = c then { q with queue := q.queue ++ [m] } else q)
        = s.subs := by
      conv_rhs => rw [← List.map_id s.subs]
      apply List.map_congr_left
      intro q hq
      simp [h q hq]
    rw [hmap]

/-- Witness for C9: one earlier publish, one subscription on room `A`, then
publishes on `A`, `B`, `A`; and a publish on an empty broker. -/
theorem c9_broker_delivery_witness :
    ((runOps initBroker ([BOp.pub "A" "m0"]
          ++ BOp.sub "A" :: [BOp.pub "A" "m1", BOp.pub "B" "x", BOp.pub "A" "m2"])).subs.filter
        (fun q => q.sid = subCount [BOp.pub "A" "m0"]))
      = [{ sid := subCount [BOp.pub "A" "m0"], code := "A"
         , queue := pubsFor "A" [BOp.pub "A" "m1", BOp.pub "B" "x", BOp.pub "A" "m2"] }]
    ∧ publish "Z" "m" initBroker = initBroker :=
  ⟨c9_broker_delivery.1 [BOp.pub "A" "m0"] "A" [BOp.pub "A" "m1", BOp.pub "B" "x", BOp.pub "A" "m2"],
   c9_broker_delivery.2 initBroker "Z" "m" (by intro q hq; simp [initBroker] at hq)⟩

/-! ### List-level lemmas for the coordinator -/

theorem countIn_append (c : String) (ps qs : List Player) :
    countIn c (ps ++ qs) = countIn c ps + countIn c qs := by
  induction ps with
  | nil => simp [countIn]
  | cons p t ih => simp [countIn, ih]; omega

theorem countIn_map (c : String) (f : Player → Player)
    (hf : ∀ p, (f p).roomCode = p.roomCode) (ps : List Player) :
    countIn c (ps.map f) = countIn c ps := by
  induction ps with
  | nil => rfl
  | cons p t ih => simp [countIn, ih, hf]

theorem countSubIn_le_countIn (c : String) (ps : List Player) :
    countSubIn c ps ≤ countIn c ps := by
  induction ps with
  | nil => exact le_refl 0
  | cons p t ih =>
    simp only [countSubIn, countIn]
    by_cases h2 : p.roomCode = c
    · by_cases h1 : p.submittedAt = none
      · rw [if_neg (fun hand => hand.2 h1), if_pos h2]
        omega
      · rw [if_pos ⟨h2, h1⟩, if_pos h2]
        omega
    · rw [if_neg (fun hand => h2 hand.1), if_neg h2]
      omega

theorem countSubIn_eq_of_all (c : String) (ps : List Player)
    (h : ∀ p ∈ ps, p.roomCode = c → p.submittedAt ≠ none) :
    countSubIn c ps = countIn c ps := by
  induction ps with
  | nil => rfl
  | cons p t ih =>
    have ht : countSubIn c t = countIn c t :=
      ih (fun q hq => h q (List.mem_cons_of_mem p hq))
    simp only [countSubIn, countIn, ht]
    by_cases hc : p.roomCode = c
    · have hsub := h p (List.mem_cons_self p t) hc
      rw [if_pos ⟨hc, hsub⟩, if_pos hc]
    · rw [if_neg (fun hand => hc hand.1), if_neg hc]

theorem all_of_countSubIn_eq (c : String) (ps : List Player)
    (h : countSubIn c ps = countIn c ps) :
    ∀ p ∈ ps, p.roomCode = c → p.submittedAt ≠ none := by
  induction ps with
  | nil => intro p hp; simp at hp
  | cons p t ih =>
    intro q hq hqc
    have hle := countSubIn_le_countIn c t
    simp only [countSubIn, countIn] at h
    rcases List.mem_cons.mp hq with rfl | hqt
    · rw [if_pos hqc] at h
      by_cases hsub : q.submittedAt = none
      · rw [if_neg (fun hand => hand.2 hsub)] at h
        omega
      · exact hsub
    · by_cases hc : p.roomCode = c
      · by_cases hsub : p.submittedAt = none
        · rw [if_neg (fun hand => hand.2 hsub), if_pos hc] at h
          omega
        · rw [if_pos ⟨hc, hsub⟩, if_pos hc] at h
          exact ih (by omega) q hqt hqc
      · rw [if_neg (fun hand => hc hand.1), if_neg hc] at h
        exact ih (by omega) q hqt hqc

theorem mem_roomPlayers (c : String) (ps : List Player) (p : Player) :
    p ∈ roomPlayers c ps ↔ p ∈ ps ∧ p.roomCode = c := by
  induction ps with
  | nil => simp [roomPlayers]
  | cons q t ih =>
    simp only [roomPlayers]
    split_ifs with hq
    · simp only [List.mem_cons, ih]
      constructor
      · rintro (rfl | ⟨hmem, hc⟩)
        · exact ⟨Or.inl rfl, hq⟩
        · exact ⟨Or.inr hmem, hc⟩
      · rintro ⟨rfl | hmem, hc⟩
        · exact Or.inl rfl
        · exact Or.inr ⟨hmem, hc⟩
    · rw [ih]
      simp only [List.mem_cons]
      constructor
      · rintro ⟨hmem, hc⟩
        exact ⟨Or.inr hmem, hc⟩
      · rintro ⟨rfl | hmem, hc⟩
        · exact absurd hc hq
        · exact ⟨hmem, hc⟩

theorem roomPlayers_append (c : String) (ps qs : List Player) :
    roomPlayers c (ps ++ qs) = roomPlayers c ps ++ roomPlayers c qs := by
  induction ps with
  | nil => rfl
  | cons p t ih =>
    by_cases hc : p.roomCode = c
    · simp [roomPlayers, hc, ih]
    · simp [roomPlayers, hc, ih]

theorem roomPlayers_ne_nil (c : String) (ps : List Player) (p : Player)
    (hp : p ∈ ps) (hc : p.roomCode = c) : roomPlayers c ps ≠ [] := by
  intro hnil
  have := (mem_roomPlayers c ps p).mpr ⟨hp, hc⟩
  rw [hnil] at this
  exact List.not_mem_nil p this

theorem findPid_some {i : ℕ} {ps : List Player} {q : Player}
    (h : findPid i ps = some q) : q ∈ ps ∧ q.pid = i := by
  induction ps with
  | nil => exact Option.noConfusion h
  | cons p t ih =>
    simp only [findPid] at h
    by_cases hp : p.pid = i
    · rw [if_pos hp, Option.some_inj] at h
      subst h
      exact ⟨List.mem_cons_self p t, hp⟩
    · rw [if_neg hp] at h
      obtain ⟨hmem, hpid⟩ := ih h
      exact ⟨List.mem_cons_of_mem p hmem, hpid⟩

theorem findPid_none {i : ℕ} {ps : List Player}
    (h : findPid i ps = none) : ∀ p ∈ ps, p.pid ≠ i := by
  induction ps with
  | nil => intro p hp; simp at hp
  | cons p t ih =>
    simp only [findPid] at h
    by_cases hp : p.pid = i
    · rw [if_pos hp] at h
      exact Option.noConfusion h
    · rw [if_neg hp] at h
      intro q hq
      rcases List.mem_cons.mp hq with rfl | hqt
      · exact hp
      · exact ih h q hqt

theorem pid_unique {ps : List Player} (hnd : (ps.map Player.pid).Nodup)
    {p q : Player} (hp : p ∈ ps) (hq : q ∈ ps) (hpq : p.pid = q.pid) : p = q := by
  induction ps with
  | nil => simp at hp
  | cons r t ih =>
    simp only [List.map_cons, List.nodup_cons] at hnd
    rcases List.mem_cons.mp hp with rfl | hpt <;> rcases List.mem_cons.mp hq with rfl | hqt
    · rfl
    · exact absurd (hpq ▸ List.mem_map_of_mem Player.pid hqt) hnd.1
    · exact absurd (hpq ▸ List.mem_map_of_mem Player.pid hpt) hnd.1
    · exact ih hnd.2 hpt hqt

theorem findPid_of_mem {ps : List Player} (hnd : (ps.map Player.pid).Nodup)
    {q : Player} (hq : q ∈ ps) : findPid q.pid ps = some q := by
  induction ps with
  | nil => simp at hq
  | cons p t ih =>
    simp only [List.map_cons, List.nodup_cons] at hnd
    simp only [findPid]
    rcases List.mem_cons.mp hq with rfl | hqt
    · rw [if_pos rfl]
    · have hne : p.pid ≠ q.pid := by
        intro he
        exact hnd.1 (he ▸ List.mem_map_of_mem Player.pid hqt)
      rw [if_neg hne]
      exact ih hnd.2 hqt

theorem findPid_map {i : ℕ} (f : Player → Player) (hf : ∀ p, (f p).pid = p.pid)
    (ps : List Player) : findPid i (ps.map f) = (findPid i ps).map f := by
  induction ps with
  | nil => rfl
  | cons p t ih =>
    simp only [List.map_cons, findPid, hf]
    split_ifs with hp
    · rfl
    · exact ih

theorem findRoom_some {c : String} {rs : List Room} {r : Room}
    (h : findRoom c rs = some r) : r ∈ rs ∧ r.code = c := by
  induction rs with
  | nil => exact Option.noConfusion h
  | cons r0 t ih =>
    simp only [findRoom] at h
    by_cases hc : r0.code = c
    · rw [if_pos hc, Option.some_inj] at h
      subst h
      exact ⟨List.mem_cons_self r0 t, hc⟩
    · rw [if_neg hc] at h
      obtain ⟨hmem, hcode⟩ := ih h
      exact ⟨List.mem_cons_of_mem r0 hmem, hcode⟩

theorem findRoom_none {c : String} {rs : List Room}
    (h : findRoom c rs = none) : ∀ r ∈ rs, r.code ≠ c := by
  induction rs with
  | nil => intro r hr; simp at hr
  | cons r0 t ih =>
    simp only [findRoom] at h
    by_cases hc : r0.code = c
    · rw [if_pos hc] at h
      exact Option.noConfusion h
    · rw [if_neg hc] at h
      intro r hr
      rcases List.mem_cons.mp hr with rfl | hrt
      · exact hc
      · exact ih h r hrt

theorem code_unique {rs : List Room} (hnd : (rs.map Room.code).Nodup)
    {r q : Room} (hr : r ∈ rs) (hq : q ∈ rs) (hrq : r.code = q.code) : r = q := by
  induction rs with
  | nil => simp at hr
  | cons r0 t ih =>
    simp only [List.map_cons, List.nodup_cons] at hnd
    rcases List.mem_cons.mp hr with rfl | hrt <;> rcases List.mem_cons.mp hq with rfl | hqt
    · rfl
    · exact absurd (hrq ▸ List.mem_map_of_mem Room.code hqt) hnd.1
    · exact absurd (hrq ▸ List.mem_map_of_mem Room.code hrt) hnd.1
    · exact ih hnd.2 hrt hqt

theorem findRoom_of_mem {rs : List Room} (hnd : (rs.map Room.code).Nodup)
    {r : Room} (hr : r ∈ rs) : findRoom r.code rs = some r := by
  induction rs with
  | nil => simp at hr
  | cons r0 t ih =>
    simp only [List.map_cons, List.nodup_cons] at hnd
    simp only [findRoom]
    rcases List.mem_cons.mp hr with rfl | hrt
    · rw [if_pos rfl]
    · have hne : r0.code ≠ r.code := by
        intro he
        exact hnd.1 (he ▸ List.mem_map_of_mem Room.code hrt)
      rw [if_neg hne]
      exact ih hnd.2 hrt

theorem findPayout_some {i : ℕ} {l : List PlayerPayout} {r : PlayerPayout}
    (h : findPayout i l = some r) : r ∈ l ∧ r.player_id = i := by
  induction l with
  | nil => exact Option.noConfusion h
  | cons x t ih =>
    simp only [findPayout] at h
    by_cases hx : x.player_id = i
    · rw [if_pos hx, Option.some_inj] at h
      subst h
      exact ⟨List.mem_cons_self x t, hx⟩
    · rw [if_neg hx] at h
      obtain ⟨hmem, hid⟩ := ih h
      exact ⟨List.mem_cons_of_mem x hmem, hid⟩

theorem findPayout_isSome {i : ℕ} {l : List PlayerPayout} {r : PlayerPayout}
    (hr : r ∈ l) (hid : r.player_id = i) : ∃ x, findPayout i l = some x := by
  induction l with
  | nil => simp at hr
  | cons y t ih =>
    simp only [findPayout]
    by_cases hy : y.player_id = i
    · exact ⟨y, if_pos hy⟩
    · rw [if_neg hy]
      rcases List.mem_cons.mp hr with rfl | hrt


      · exact absurd hid hy
      · exact ih hrt

theorem findPayout_eq_none {i : ℕ} {l : List PlayerPayout}
    (h : ∀ x ∈ l, x.player_id ≠ i) : findPayout i l = none := by
  induction l with
  | nil => rfl
  | cons y t ih =>
    simp only [findPayout]
    rw [if_neg (h y (List.mem_cons_self y t))]
    exact ih (fun x hx => h x (List.mem_cons_of_mem y hx))

theorem mem_removePid {i : ℕ} {ps : List Player} {p : Player}
    (h : p ∈ removePid i ps) : p ∈ ps := by
  induction ps with
  | nil => exact absurd h (List.not_mem_nil p)
  | cons q t ih =>
    simp only [removePid] at h
    by_cases hq : q.pid = i
    · rw [if_pos hq] at h
      exact List.mem_cons_of_mem q (ih h)
    · rw [if_neg hq] at h
      rcases List.mem_cons.mp h with rfl | ht
      · exact List.mem_cons_self p t
      · exact List.mem_cons_of_mem q (ih ht)

theorem removePid_sublist (i : ℕ) (ps : List Player) :
    List.Sublist (removePid i ps) ps := by
  induction ps with
  | nil => exact List.Sublist.refl []
  | cons q t ih =>
    simp only [removePid]
    by_cases hq : q.pid = i
    · rw [if_pos hq]
      exact List.Sublist.cons q ih
    · rw [if_neg hq]
      exact List.Sublist.cons₂ q ih

theorem removePid_of_absent {i : ℕ} {ps : List Player}
    (h : ∀ p ∈ ps, p.pid ≠ i) : removePid i ps = ps := by
  induction ps with
  | nil => rfl
  | cons q t ih =>
    simp only [removePid]
    rw [if_neg (h q (List.mem_cons_self q t))]
    rw [ih (fun p hp => h p (List.mem_cons_of_mem q hp))]

theorem countIn_removePid {ps : List Player} (hnd : (ps.map Player.pid).Nodup)
    {q : Player} (hq : q ∈ ps) (c : String) :
    countIn c (removePid q.pid ps) + (if q.roomCode = c then 1 else 0) = countIn c ps := by
  induction ps with
  | nil => simp at hq
  | cons p t ih =>
    simp only [List.map_cons, List.nodup_cons] at hnd
    rcases List.mem_cons.mp hq with rfl | hqt
    · simp only [removePid, if_pos rfl]
      have habs : ∀ x ∈ t, x.pid ≠ q.pid := by
        intro x hx he
        exact hnd.1 (he ▸ List.mem_map_of_mem Player.pid hx)
      rw [removePid_of_absent habs]
      simp [countIn]
      omega
    · have hne : p.pid ≠ q.pid := by
        intro he
        exact hnd.1 (he ▸ List.mem_map_of_mem Player.pid hqt)
      simp only [removePid, if_neg hne, countIn]
      have := ih hnd.2 hqt
      omega

theorem roomPlayers_map_invariant (c : String) (f : Player → Player)
    (hcode : ∀ p, (f p).roomCode = p.roomCode) :
    ∀ ps : List Player, (∀ p ∈ ps, p.roomCode = c → f p = p) →
      roomPlayers c (ps.map f) = roomPlayers c ps := by
  intro ps
  induction ps with
  | nil => intro _; rfl
  | cons p t ih =>
    intro h
    simp only [List.map_cons, roomPlayers, hcode]
    by_cases hc : p.roomCode = c
    · rw [if_pos hc, if_pos hc, h p (List.mem_cons_self p t) hc,
        ih (fun x hx => h x (List.mem_cons_of_mem p hx))]
    · rw [if_neg hc, if_neg hc, ih (fun x hx => h x (List.mem_cons_of_mem p hx))]

theorem roomPlayers_removePid (c : String) (i : ℕ) :
    ∀ ps : List Player, (∀ p ∈ ps, p.roomCode = c → p.pid ≠ i) →
      roomPlayers c (removePid i ps) = roomPlayers c ps := by
  intro ps
  induction ps with
  | nil => intro _; rfl
  | cons p t ih =>
    intro h
    simp only [removePid, roomPlayers]
    by_cases hp : p.pid = i
    · have hc : ¬ p.roomCode = c := fun hc => h p (List.mem_cons_self p t) hc hp
      rw [if_pos hp, if_neg hc, ih (fun x hx => h x (List.mem_cons_of_mem p hx))]
    · rw [if_neg hp]
      simp only [roomPlayers]
      by_cases hc : p.roomCode = c
      · rw [if_pos hc, if_pos hc, ih (fun x hx => h x (List.mem_cons_of_mem p hx))]
      · rw [if_neg hc, if_neg hc, ih (fun x hx => h x (List.mem_cons_of_mem p hx))]

theorem roomPlayers_map_all (c : String) (f : Player → Player)
    (hcode : ∀ p, (f p).roomCode = p.roomCode) (ps : List Player) :
    roomPlayers c (ps.map f) = (roomPlayers c ps).map f := by
  induction ps with
  | nil => rfl
  | cons p t ih =>
    simp only [List.map_cons, roomPlayers, hcode]
    by_cases hc : p.roomCode = c
    · rw [if_pos hc, if_pos hc, ih]
      rfl
    · rw [if_neg hc, if_neg hc, ih]

theorem updStatus_code (c st : String) (r : Room) : (updStatus c st r).code = r.code := by
  unfold updStatus
  split_ifs <;> rfl

theorem updStatus_max (c st : String) (r : Room) :
    (updStatus c st r).maxPlayers = r.maxPlayers := by
  unfold updStatus
  split_ifs <;> rfl

theorem updStatus_status_of_code {c : String} (st : String) {r : Room} (h : r.code = c) :
    (updStatus c st r).status = st := by
  unfold updStatus
  rw [if_pos h]

theorem updStatus_of_ne {c : String} (st : String) {r : Room} (h : r.code ≠ c) :
    updStatus c st r = r := by
  unfold updStatus
  rw [if_neg h]

theorem submitMark_roomCode (i : ℕ) (a b : ℤ) (t : ℕ) (p : Player) :
    (submitMark i a b t p).roomCode = p.roomCode := by
  unfold submitMark
  split_ifs <;> rfl

theorem submitMark_pid (i : ℕ) (a b : ℤ) (t : ℕ) (p : Player) :
    (submitMark i a b t p).pid = p.pid := by
  unfold submitMark
  split_ifs <;> rfl

theorem submitMark_of_ne {i : ℕ} (a : ℤ) (b : ℤ) (t : ℕ) {p : Player} (h : p.pid ≠ i) :
    submitMark i a b t p = p := by
  unfold submitMark
  rw [if_neg h]

theorem submitMark_submittedAt (i : ℕ) (a b : ℤ) (t : ℕ) (p : Player)
    (h : p.submittedAt ≠ none) : (submitMark i a b t p).submittedAt ≠ none := by
  unfold submitMark
  split_ifs
  · simp
  · exact h

theorem payMark_roomCode (res : GameResult) (p : Player) :
    (payMark res p).roomCode = p.roomCode := by
  unfold payMark
  cases findPayout p.pid res.players <;> rfl

theorem payMark_pid (res : GameResult) (p : Player) : (payMark res p).pid = p.pid := by
  unfold payMark
  cases findPayout p.pid res.players <;> rfl

theorem payMark_submittedAt (res : GameResult) (p : Player) :
    (payMark res p).submittedAt = p.submittedAt := by
  unfold payMark
  cases findPayout p.pid res.players <;> rfl

theorem payMark_allocA (res : GameResult) (p : Player) :
    (payMark res p).allocA = p.allocA := by
  unfold payMark
  cases findPayout p.pid res.players <;> rfl

theorem payMark_allocB (res : GameResult) (p : Player) :
    (payMark res p).allocB = p.allocB := by
  unfold payMark
  cases findPayout p.pid res.players <;> rfl

theorem pids_map (f : Player → Player) (hf : ∀ p, (f p).pid = p.pid) (ps : List Player) :
    (ps.map f).map Player.pid = ps.map Player.pid := by
  rw [List.map_map]
  apply List.map_congr_left
  intro p _
  exact hf p

theorem codes_map_updStatus (c st : String) (rs : List Room) :
    (rs.map (updStatus c st)).map Room.code = rs.map Room.code := by
  rw [List.map_map]
  apply List.map_congr_left
  intro r _
  exact updStatus_code c st r

/-! ### Inversion lemmas for the coordinator operations -/

theorem calc_ok_inv {ps : List Player} {res : GameResult}
    (h : calculate_payouts ps = .ok res) : res = payoutResult ps ∧ ps ≠ [] := by
  unfold calculate_payouts at h
  split_ifs at h with h1 h2
  · exact ⟨(Except.ok.injEq _ _).mp h |>.symm, h1⟩

theorem setStatus_players (s : GameState) (c st : String) :
    (setStatus s c st).players = s.players := rfl

theorem setStatus_finalized (s : GameState) (c st : String) :
    (setStatus s c st).finalized = s.finalized := rfl

theorem join_ok_inv {s : GameState} {code name : String} {s' : GameState} {p : Player}
    (h : join_room s code name = .ok (s', p)) :
    ∃ room, findRoom code s.rooms = some room ∧
      countPlayers s code < room.maxPlayers ∧
      p = newPlayer s code name ∧
      ((countPlayers s code + 1 = room.maxPlayers ∧
          s' = setStatus { s with players := s.players ++ [newPlayer s code name],
                                  nextPid := s.nextPid + 1 } code STATUS_READY) ∨
       (countPlayers s code + 1 ≠ room.maxPlayers ∧
          s' = { s with players := s.players ++ [newPlayer s code name],
                        nextPid := s.nextPid + 1 })) := by
  unfold join_room at h
  rcases hf : findRoom code s.rooms with _ | room
  · rw [hf] at h
    exact Except.noConfusion h
  · rw [hf] at h
    simp only [] at h
    by_cases h1 : room.maxPlayers ≤ countPlayers s code
    · rw [if_pos h1] at h
      exact Except.noConfusion h
    · rw [if_neg h1] at h
      by_cases h2 : countPlayers s code + 1 = room.maxPlayers
      · rw [if_pos h2] at h
        simp only [Except.ok.injEq, Prod.mk.injEq] at h
        exact ⟨room, rfl, not_le.mp h1, h.2.symm, Or.inl ⟨h2, h.1.symm⟩⟩
      · rw [if_neg h2] at h
        simp only [Except.ok.injEq, Prod.mk.injEq] at h
        exact ⟨room, rfl, not_le.mp h1, h.2.symm, Or.inr ⟨h2, h.1.symm⟩⟩

theorem finalize_ok_inv {s : GameState} {room : Room} {s2 : GameState} {result : GameResult}
    (h : finalize_room s room = .ok (s2, result)) :
    calculate_payouts (roomPlayers room.code s.players) = .ok result ∧
    s2 = setStatus { s with players := applyPayouts result s.players
                          , finalized := s.finalized ++ [room.code] }
           room.code STATUS_COMPLETED := by
  unfold finalize_room at h
  rcases hc : calculate_payouts (roomPlayers room.code s.players) with e | r
  · rw [hc] at h
    exact Except.noConfusion h
  · rw [hc] at h
    simp only [Except.ok.injEq, Prod.mk.injEq] at h
    obtain ⟨hs, hr⟩ := h
    subst hr
    exact ⟨rfl, hs.symm⟩

theorem submit_ok_inv {s : GameState} {code : String} {pid : ℕ} {a b : ℤ}
    {s' : GameState} {p : Player} {res : Option GameResult}
    (h : submit_allocation s code pid a b = .ok (s', p, res)) :
    a + b = 100 ∧
    ∃ player room, findPid pid s.players = some player ∧ player.roomCode = code ∧
      findRoom code s.rooms = some room ∧
      2 ≤ countPlayers s code ∧ player.submittedAt = none ∧
      p = { player with allocA := some a, allocB := some b, submittedAt := some s.clock } ∧
      ((∃ result, all_players_submitted (submitUpdate s pid a b) room = true ∧
          finalize_room (submitUpdate s pid a b) room = .ok (s', result) ∧
          res = some result) ∨
       (all_players_submitted (submitUpdate s pid a b) room = false ∧
          s' = submitUpdate s pid a b ∧ res = none)) := by
  unfold submit_allocation at h
  by_cases hab : a + b ≠ 100
  · rw [if_pos hab] at h
    exact Except.noConfusion h
  · rw [if_neg hab] at h
    refine ⟨not_not.mp hab, ?_⟩
    rcases hfp : findPid pid s.players with _ | player
    · rw [hfp] at h
      exact Except.noConfusion h
    · rw [hfp] at h
      simp only [] at h
      by_cases hrc : player.roomCode ≠ code
      · rw [if_pos hrc] at h
        exact Except.noConfusion h
      · rw [if_neg hrc] at h
        rcases hfr : findRoom code s.rooms with _ | room
        · rw [hfr] at h
          exact Except.noConfusion h
        · rw [hfr] at h
          simp only [] at h
          by_cases hc2 : countPlayers s code < 2
          · rw [if_pos hc2] at h
            exact Except.noConfusion h
          · rw [if_neg hc2] at h
            by_cases hsub : player.submittedAt ≠ none
            · rw [if_pos hsub] at h
              exact Except.noConfusion h
            · rw [if_neg hsub] at h
              refine ⟨player, room, rfl, not_not.mp hrc, rfl, not_lt.mp hc2,
                not_not.mp hsub, ?_, ?_⟩
              · by_cases hall : all_players_submitted (submitUpdate s pid a b) room = true
                · rw [if_pos hall] at h
                  rcases hfin : finalize_room (submitUpdate s pid a b) room with e | pr
                  · rw [hfin] at h
                    exact Except.noConfusion h
                  · rw [hfin] at h
                    obtain ⟨s2, result⟩ := pr
                    simp only [Except.ok.injEq, Prod.mk.injEq] at h
                    exact h.2.1.symm
                · rw [if_neg hall] at h
                  simp only [Except.ok.injEq, Prod.mk.injEq] at h
                  exact h.2.1.symm
              · by_cases hall : all_players_submitted (submitUpdate s pid a b) room = true
                · rw [if_pos hall] at h
                  rcases hfin : finalize_room (submitUpdate s pid a b) room with e | pr
                  · rw [hfin] at h
                    exact Except.noConfusion h
                  · obtain ⟨s2, result⟩ := pr
                    rw [hfin] at h
                    simp only [Except.ok.injEq, Prod.mk.injEq] at h
                    refine Or.inl ⟨result, hall, ?_, h.2.2.symm⟩
                    rw [← h.1]
                · rw [if_neg hall] at h
                  simp only [Except.ok.injEq, Prod.mk.injEq] at h
                  exact Or.inr ⟨Bool.not_eq_true _ ▸ hall, h.1.symm, h.2.2.symm⟩

theorem leave_ok_inv {s : GameState} {code : String} {pid : ℕ}
    {s' : GameState} {out : Player × Room}
    (h : leave_room s code pid = .ok (s', out)) :
    ∃ player room, findPid pid s.players = some player ∧ player.roomCode = code ∧
      findRoom code s.rooms = some room ∧ room.status ≠ STATUS_COMPLETED ∧
      out = (player, room) ∧
      ((countIn code (removePid pid s.players) < room.maxPlayers ∧
          room.status = STATUS_READY ∧
          s' = setStatus { s with players := removePid pid s.players } code STATUS_WAITING) ∨
       (¬(countIn code (removePid pid s.players) < room.maxPlayers ∧
            room.status = STATUS_READY) ∧
          s' = { s with players := removePid pid s.players })) := by
  unfold leave_room at h
  rcases hfp : findPid pid s.players with _ | player
  · rw [hfp] at h
    exact Except.noConfusion h
  · rw [hfp] at h
    simp only [] at h
    by_cases hrc : player.roomCode ≠ code
    · rw [if_pos hrc] at h
      exact Except.noConfusion h
    · rw [if_neg hrc] at h
      rcases hfr : findRoom code s.rooms with _ | room
      · rw [hfr] at h
        exact Except.noConfusion h
      · rw [hfr] at h
        simp only [] at h
        by_cases hst : room.status = STATUS_COMPLETED
        · rw [if_pos hst] at h
          exact Except.noConfusion h
        · rw [if_neg hst] at h
          by_cases hcond : countIn code (removePid pid s.players) < room.maxPlayers ∧
              room.status = STATUS_READY
          · rw [if_pos hcond] at h
            simp only [Except.ok.injEq, Prod.mk.injEq] at h
            exact ⟨player, room, rfl, not_not.mp hrc, rfl, hst, h.2.symm,
              Or.inl ⟨hcond.1, hcond.2, h.1.symm⟩⟩
          · rw [if_neg hcond] at h
            simp only [Except.ok.injEq, Prod.mk.injEq] at h
            exact ⟨player, room, rfl, not_not.mp hrc, rfl, hst, h.2.symm,
              Or.inr ⟨hcond, h.1.symm⟩⟩

/-! ### Invariant preservation -/

theorem countIn_eq_zero {c : String} {ps : List Player}
    (h : ∀ p ∈ ps, p.roomCode ≠ c) : countIn c ps = 0 := by
  induction ps with
  | nil => rfl
  | cons p t ih =>
    simp only [countIn]
    rw [if_neg (h p (List.mem_cons_self p t)), Nat.zero_add]
    exact ih (fun q hq => h q (List.mem_cons_of_mem p hq))

theorem countIn_join (s : GameState) (code name c : String) :
    countIn c (s.players ++ [newPlayer s code name])
      = countIn c s.players + (if code = c then 1 else 0) := by
  rw [countIn_append]
  simp [countIn, newPlayer]

theorem inv_init : Inv initState := by
  constructor <;> simp [initState, countPlayers, finCount, STATUS_COMPLETED]

theorem inv_create {s : GameState} (inv : Inv s) {code : String} {m : ℕ}
    (hm : 2 ≤ m) (hfresh : ∀ r ∈ s.rooms, r.code ≠ code) :
    Inv (create_room s code m).1 := by
  have hcount0 : countIn code s.players = 0 := by
    apply countIn_eq_zero
    intro p hp
    obtain ⟨r, hr, hrc⟩ := inv.fk p hp
    rw [← hrc]
    exact hfresh r hr
  have hfin0 : finCount s code = 0 := by
    by_contra hne
    obtain ⟨r, hr, hrc⟩ := inv.finHasRoom code (Nat.one_le_iff_ne_zero.mpr hne)
    exact hfresh r hr hrc
  have hstate : (create_room s code m).1
      = { s with rooms := s.rooms ++ [{ code := code, maxPlayers := m, status := STATUS_WAITING }] } := rfl
  rw [hstate]
  constructor
  · show ((s.rooms ++ [({ code := code, maxPlayers := m, status := STATUS_WAITING } : Room)]).map Room.code).Nodup
    rw [List.map_append]
    refine List.Nodup.append inv.roomsNodup (List.nodup_singleton code) ?_
    intro x hx hx2
    simp only [List.map_cons, List.map_nil, List.mem_singleton] at hx2
    obtain ⟨r, hr, hrc⟩ := List.mem_map.mp hx
    exact hfresh r hr (hrc.trans hx2)
  · exact inv.pidsNodup
  · exact inv.pidsLt
  · intro p hp
    obtain ⟨r, hr, hrc⟩ := inv.fk p hp
    exact ⟨r, List.mem_append_left _ hr, hrc⟩
  · intro r hr
    rcases List.mem_append.mp hr with hold | hnew
    · exact inv.maxLB r hold
    · rw [List.mem_singleton.mp hnew]
      exact hm
  · intro r hr
    rcases List.mem_append.mp hr with hold | hnew
    · exact inv.capacity r hold
    · rw [List.mem_singleton.mp hnew]
      show countIn code s.players ≤ m
      rw [hcount0]
      exact Nat.zero_le m
  · intro r hr hready
    rcases List.mem_append.mp hr with hold | hnew
    · exact inv.readyCount r hold hready
    · rw [List.mem_singleton.mp hnew] at hready
      exact absurd hready (show STATUS_WAITING ≠ STATUS_READY by decide)
  · exact inv.finOnce
  · intro r hr
    rcases List.mem_append.mp hr with hold | hnew
    · exact inv.statusCompleted r hold
    · rw [List.mem_singleton.mp hnew]
      constructor
      · intro hc
        exact absurd hc (show STATUS_WAITING ≠ STATUS_COMPLETED by decide)
      · intro hge
        have hge2 : 1 ≤ finCount s code := hge
        omega
  · intro c hc
    obtain ⟨r, hr, hrc⟩ := inv.finHasRoom c hc
    exact ⟨r, List.mem_append_left _ hr, hrc⟩
  · intro r hr hcomp
    rcases List.mem_append.mp hr with hold | hnew
    · exact inv.completedFull r hold hcomp
    · rw [List.mem_singleton.mp hnew] at hcomp
      exact absurd hcomp (show STATUS_WAITING ≠ STATUS_COMPLETED by decide)

theorem inv_join {s s' : GameState} {code name : String} {p : Player} (inv : Inv s)
    (h : join_room s code name = .ok (s', p)) : Inv s' := by
  obtain ⟨room, hfr, hlt, hp, hcase⟩ := join_ok_inv h
  obtain ⟨hroomMem, hroomCode⟩ := findRoom_some hfr
  have hltIn : countIn code s.players < room.maxPlayers := hlt
  have hnotCompleted : room.status ≠ STATUS_COMPLETED := by
    intro hc
    have hcnt := (inv.completedFull room hroomMem hc).1
    rw [hroomCode] at hcnt
    have hcnt2 : countIn code s.players = room.maxPlayers := hcnt
    omega
  have hnotReady : room.status ≠ STATUS_READY := by
    intro hc
    have hcnt := inv.readyCount room hroomMem hc
    rw [hroomCode] at hcnt
    have hcnt2 : countIn code s.players = room.maxPlayers := hcnt
    omega
  have hfin0 : finCount s code = 0 := by
    have hiff := inv.statusCompleted room hroomMem
    rw [hroomCode] at hiff
    by_contra hne
    exact hnotCompleted (hiff.mpr (Nat.one_le_iff_ne_zero.mpr hne))
  have hpidsNodup : ((s.players ++ [newPlayer s code name]).map Player.pid).Nodup := by
    rw [List.map_append]
    refine List.Nodup.append inv.pidsNodup (List.nodup_singleton _) ?_
    intro x hx hx2
    simp only [newPlayer, List.map_cons, List.map_nil, List.mem_singleton] at hx2
    obtain ⟨q, hq, hqx⟩ := List.mem_map.mp hx
    have := inv.pidsLt q hq
    omega
  have hpidsLt : ∀ q ∈ s.players ++ [newPlayer s code name], q.pid < s.nextPid + 1 := by
    intro q hq
    rcases List.mem_append.mp hq with hold | hnew
    · have := inv.pidsLt q hold
      omega
    · rw [List.mem_singleton.mp hnew]
      exact Nat.lt_succ_self _
  have hcapIn : ∀ r ∈ s.rooms, countIn r.code s.players ≤ r.maxPlayers := inv.capacity
  rcases hcase with ⟨hfill, hs⟩ | ⟨hnofill, hs⟩
  · have hfillIn : countIn code s.players + 1 = room.maxPlayers := hfill
    subst hs
    constructor
    · show ((s.rooms.map (updStatus code STATUS_READY)).map Room.code).Nodup
      rw [codes_map_updStatus]
      exact inv.roomsNodup
    · exact hpidsNodup
    · exact hpidsLt
    · intro q hq
      rcases List.mem_append.mp hq with hold | hnew
      · obtain ⟨r, hr, hrc⟩ := inv.fk q hold
        exact ⟨updStatus code STATUS_READY r,
          List.mem_map_of_mem _ hr, (updStatus_code _ _ r).trans hrc⟩
      · rw [List.mem_singleton.mp hnew]
        refine ⟨updStatus code STATUS_READY room, List.mem_map_of_mem _ hroomMem, ?_⟩
        rw [updStatus_code, hroomCode]
        rfl
    · intro r' hr'
      obtain ⟨r, hr, hrr⟩ := List.mem_map.mp hr'
      rw [← hrr, updStatus_max]
      exact inv.maxLB r hr
    · intro r' hr'
      obtain ⟨r, hr, hrr⟩ := List.mem_map.mp hr'
      subst hrr
      show countIn (updStatus code STATUS_READY r).code (s.players ++ [newPlayer s code name])
        ≤ (updStatus code STATUS_READY r).maxPlayers
      rw [updStatus_code, updStatus_max, countIn_join]
      have hcap := hcapIn r hr
      by_cases hc : code = r.code
      · have hr_room : r = room :=
          code_unique inv.roomsNodup hr hroomMem (by rw [← hc, hroomCode])
        rw [if_pos hc, ← hc, hr_room]
        omega
      · rw [if_neg hc]
        omega
    · intro r' hr' hready
      obtain ⟨r, hr, hrr⟩ := List.mem_map.mp hr'
      subst hrr
      show countIn (updStatus code STATUS_READY r).code (s.players ++ [newPlayer s code name])
        = (updStatus code STATUS_READY r).maxPlayers
      rw [updStatus_code, updStatus_max, countIn_join]
      by_cases hc : code = r.code
      · have hr_room : r = room :=
          code_unique inv.roomsNodup hr hroomMem (by rw [← hc, hroomCode])
        rw [if_pos hc, ← hc, hr_room]
        omega
      · rw [updStatus_of_ne _ (fun he => hc he.symm)] at hready
        have := inv.readyCount r hr hready
        have hIn : countIn r.code s.players = r.maxPlayers := this
        rw [if_neg hc]
        omega
    · exact inv.finOnce
    · intro r' hr'
      obtain ⟨r, hr, hrr⟩ := List.mem_map.mp hr'
      subst hrr
      by_cases hc : r.code = code
      · have hr_room : r = room :=
          code_unique inv.roomsNodup hr hroomMem (hc.trans hroomCode.symm)
        rw [updStatus_code, hc]
        constructor
        · intro habs
          rw [updStatus_status_of_code _ hc] at habs
          exact absurd habs (show STATUS_READY ≠ STATUS_COMPLETED by decide)
        · intro hge
          have hge2 : 1 ≤ finCount s code := hge
          omega
      · rw [updStatus_of_ne _ hc]
        show r.status = STATUS_COMPLETED ↔ 1 ≤ finCount s r.code
        exact inv.statusCompleted r hr
    · intro c hc
      have hc2 : 1 ≤ finCount s c := hc
      obtain ⟨r, hr, hrc⟩ := inv.finHasRoom c hc2
      exact ⟨updStatus code STATUS_READY r, List.mem_map_of_mem _ hr,
        (updStatus_code _ _ r).trans hrc⟩
    · intro r' hr' hcomp
      obtain ⟨r, hr, hrr⟩ := List.mem_map.mp hr'
      subst hrr
      by_cases hc : r.code = code
      · rw [updStatus_status_of_code _ hc] at hcomp
        exact absurd hcomp (show STATUS_READY ≠ STATUS_COMPLETED by decide)
      · rw [updStatus_of_ne _ hc] at hcomp ⊢
        obtain ⟨hcount, hsub⟩ := inv.completedFull r hr hcomp
        have hcountIn : countIn r.code s.players = r.maxPlayers := hcount
        constructor
        · show countIn r.code (s.players ++ [newPlayer s code name]) = r.maxPlayers
          rw [countIn_join, if_neg (fun he => hc he.symm)]
          omega
        · intro q hq hqc
          rcases List.mem_append.mp hq with hold | hnew
          · exact hsub q hold hqc
          · rw [List.mem_singleton.mp hnew] at hqc
            exact absurd (hqc.symm : r.code = code) hc
  · subst hs
    constructor
    · exact inv.roomsNodup
    · exact hpidsNodup
    · exact hpidsLt
    · intro q hq
      rcases List.mem_append.mp hq with hold | hnew
      · exact inv.fk q hold
      · rw [List.mem_singleton.mp hnew]
        exact ⟨room, hroomMem, hroomCode⟩
    · exact inv.maxLB
    · intro r hr
      show countIn r.code (s.players ++ [newPlayer s code name]) ≤ r.maxPlayers
      rw [countIn_join]
      have hcap := hcapIn r hr
      by_cases hc : code = r.code
      · have hr_room : r = room :=
          code_unique inv.roomsNodup hr hroomMem (by rw [← hc, hroomCode])
        rw [if_pos hc, ← hc, hr_room]
        omega
      · rw [if_neg hc]
        omega
    · intro r hr hready
      show countIn r.code (s.players ++ [newPlayer s code name]) = r.maxPlayers
      rw [countIn_join]
      by_cases hc : code = r.code
      · have hr_room : r = room :=
          code_unique inv.roomsNodup hr hroomMem (by rw [← hc, hroomCode])
        rw [hr_room] at hready
        exact absurd hready hnotReady
      · rw [if_neg hc]
        have hIn : countIn r.code s.players = r.maxPlayers := inv.readyCount r hr hready
        omega
    · exact inv.finOnce
    · intro r hr
      show r.status = STATUS_COMPLETED ↔ 1 ≤ finCount s r.code
      exact inv.statusCompleted r hr
    · intro c hc
      have hc2 : 1 ≤ finCount s c := hc
      exact inv.finHasRoom c hc2
    · intro r hr hcomp
      obtain ⟨hcount, hsub⟩ := inv.completedFull r hr hcomp
      have hcountIn : countIn r.code s.players = r.maxPlayers := hcount
      have hc : r.code ≠ code := by
        intro he
        have hr_room : r = room :=
          code_unique inv.roomsNodup hr hroomMem (he.trans hroomCode.symm)
        exact hnotCompleted (hr_room ▸ hcomp)
      constructor
      · show countIn r.code (s.players ++ [newPlayer s code name]) = r.maxPlayers
        rw [countIn_join, if_neg (fun he => hc he.symm)]
        omega
      · intro q hq hqc
        rcases List.mem_append.mp hq with hold | hnew
        · exact hsub q hold hqc
        · rw [List.mem_singleton.mp hnew] at hqc
          exact absurd (hqc.symm : r.code = code) hc

theorem inv_leave {s s' : GameState} {code : String} {pid : ℕ} {out : Player × Room}
    (inv : Inv s) (h : leave_room s code pid = .ok (s', out)) : Inv s' := by
  obtain ⟨player, room, hfp, hpc, hfr, hnc, hout, hcase⟩ := leave_ok_inv h
  obtain ⟨hpMem, hpPid⟩ := findPid_some hfp
  obtain ⟨hroomMem, hroomCode⟩ := findRoom_some hfr
  have hcount : ∀ c, countIn c (removePid pid s.players)
      + (if player.roomCode = c then 1 else 0) = countIn c s.players := by
    intro c
    rw [← hpPid]
    exact countIn_removePid inv.pidsNodup hpMem c
  have hsubl : List.Sublist (removePid pid s.players) s.players := removePid_sublist pid s.players
  have hpids' : ((removePid pid s.players).map Player.pid).Nodup :=
    inv.pidsNodup.sublist (hsubl.map Player.pid)
  have hmem' : ∀ q ∈ removePid pid s.players, q ∈ s.players := fun q hq => mem_removePid hq
  rcases hcase with ⟨hdrop, hready, hs⟩ | ⟨hncond, hs⟩
  · subst hs
    constructor
    · show ((s.rooms.map (updStatus code STATUS_WAITING)).map Room.code).Nodup
      rw [codes_map_updStatus]
      exact inv.roomsNodup
    · exact hpids'
    · intro q hq
      exact inv.pidsLt q (hmem' q hq)
    · intro q hq
      obtain ⟨r, hr, hrc⟩ := inv.fk q (hmem' q hq)
      exact ⟨updStatus code STATUS_WAITING r, List.mem_map_of_mem _ hr,
        (updStatus_code _ _ r).trans hrc⟩
    · intro r' hr'
      obtain ⟨r, hr, hrr⟩ := List.mem_map.mp hr'
      rw [← hrr, updStatus_max]
      exact inv.maxLB r hr
    · intro r' hr'
      obtain ⟨r, hr, hrr⟩ := List.mem_map.mp hr'
      subst hrr
      show countIn (updStatus code STATUS_WAITING r).code (removePid pid s.players)
        ≤ (updStatus code STATUS_WAITING r).maxPlayers
      rw [updStatus_code, updStatus_max]
      have h1 := hcount r.code
      have h2 : countIn r.code s.players ≤ r.maxPlayers := inv.capacity r hr
      omega
    · intro r' hr' hready'
      obtain ⟨r, hr, hrr⟩ := List.mem_map.mp hr'
      subst hrr
      by_cases hc : r.code = code
      · rw [updStatus_status_of_code _ hc] at hready'
        exact absurd hready' (show STATUS_WAITING ≠ STATUS_READY by decide)
      · rw [updStatus_of_ne _ hc] at hready' ⊢
        show countIn r.code (removePid pid s.players) = r.maxPlayers
        have h1 := hcount r.code
        have h2 : countIn r.code s.players = r.maxPlayers := inv.readyCount r hr hready'
        have h3 : player.roomCode ≠ r.code := by
          rw [hpc]
          exact fun he => hc he.symm
        rw [if_neg h3] at h1
        omega
    · exact inv.finOnce
    · intro r' hr'
      obtain ⟨r, hr, hrr⟩ := List.mem_map.mp hr'
      subst hrr
      by_cases hc : r.code = code
      · have hr_room : r = room :=
          code_unique inv.roomsNodup hr hroomMem (hc.trans hroomCode.symm)
        have hfin0 : finCount s r.code = 0 := by
          have hiff := inv.statusCompleted r hr
          by_contra hne
          exact hnc (hr_room ▸ hiff.mpr (Nat.one_le_iff_ne_zero.mpr hne))
        rw [updStatus_code]
        constructor
        · intro habs
          rw [updStatus_status_of_code _ hc] at habs
          exact absurd habs (show STATUS_WAITING ≠ STATUS_COMPLETED by decide)
        · intro hge
          have hge2 : 1 ≤ finCount s r.code := hge
          omega
      · rw [updStatus_of_ne _ hc]
        show r.status = STATUS_COMPLETED ↔ 1 ≤ finCount s r.code
        exact inv.statusCompleted r hr
    · intro c hc
      have hc2 : 1 ≤ finCount s c := hc
      obtain ⟨r, hr, hrc⟩ := inv.finHasRoom c hc2
      exact ⟨updStatus code STATUS_WAITING r, List.mem_map_of_mem _ hr,
        (updStatus_code _ _ r).trans hrc⟩
    · intro r' hr' hcomp
      obtain ⟨r, hr, hrr⟩ := List.mem_map.mp hr'
      subst hrr
      by_cases hc : r.code = code
      · rw [updStatus_status_of_code _ hc] at hcomp
        exact absurd hcomp (show STATUS_WAITING ≠ STATUS_COMPLETED by decide)
      · rw [updStatus_of_ne _ hc] at hcomp ⊢
        obtain ⟨hcountFull, hsub⟩ := inv.completedFull r hr hcomp
        have hcountFullIn : countIn r.code s.players = r.maxPlayers := hcountFull
        have h1 := hcount r.code
        have h3 : player.roomCode ≠ r.code := by
          rw [hpc]
          exact fun he => hc he.symm
        rw [if_neg h3] at h1
        constructor
        · show countIn r.code (removePid pid s.players) = r.maxPlayers
          omega
        · intro q hq hqc
          exact hsub q (hmem' q hq) hqc
  · subst hs
    constructor
    · exact inv.roomsNodup
    · exact hpids'
    · intro q hq
      exact inv.pidsLt q (hmem' q hq)
    · intro q hq
      exact inv.fk q (hmem' q hq)
    · exact inv.maxLB
    · intro r hr
      show countIn r.code (removePid pid s.players) ≤ r.maxPlayers
      have h1 := hcount r.code
      have h2 : countIn r.code s.players ≤ r.maxPlayers := inv.capacity r hr
      omega
    · intro r hr hready'
      show countIn r.code (removePid pid s.players) = r.maxPlayers
      have h1 := hcount r.code
      have h2 : countIn r.code s.players = r.maxPlayers := inv.readyCount r hr hready'
      by_cases hc : r.code = code
      · have hr_room : r = room :=
          code_unique inv.roomsNodup hr hroomMem (hc.trans hroomCode.symm)
        have hroomReady : room.status = STATUS_READY := hr_room ▸ hready'
        have hge : ¬ countIn code (removePid pid s.players) < room.maxPlayers :=
          fun hlt => hncond ⟨hlt, hroomReady⟩
        have hple : countIn code s.players ≤ room.maxPlayers := by
          have := inv.capacity room hroomMem
          rw [hroomCode] at this
          exact this
        have hpcIn : player.roomCode = r.code := by rw [hpc, hc]
        rw [if_pos hpcIn] at h1
        have h1c := hcount code
        rw [hpc, if_pos rfl] at h1c
        have hrc2 : r.maxPlayers = room.maxPlayers := by rw [hr_room]
        omega
      · have h3 : player.roomCode ≠ r.code := by
          rw [hpc]
          exact fun he => hc he.symm
        rw [if_neg h3] at h1
        omega
    · exact inv.finOnce
    · intro r hr
      show r.status = STATUS_COMPLETED ↔ 1 ≤ finCount s r.code
      exact inv.statusCompleted r hr
    · intro c hc
      have hc2 : 1 ≤ finCount s c := hc
      exact inv.finHasRoom c hc2
    · intro r hr hcomp
      obtain ⟨hcountFull, hsub⟩ := inv.completedFull r hr hcomp
      have hcountFullIn : countIn r.code s.players = r.maxPlayers := hcountFull
      have hc : r.code ≠ code := by
        intro he
        have hr_room : r = room :=
          code_unique inv.roomsNodup hr hroomMem (he.trans hroomCode.symm)
        exact hnc (hr_room ▸ hcomp)
      have h1 := hcount r.code
      have h3 : player.roomCode ≠ r.code := by
        rw [hpc]
        exact fun he => hc he.symm
      rw [if_neg h3] at h1
      constructor
      · show countIn r.code (removePid pid s.players) = r.maxPlayers
        omega
      · intro q hq hqc
        exact hsub q (hmem' q hq) hqc

theorem finCount_append_one (l : List String) (d c : String) :
    (l ++ [d]).count c = l.count c + (if d = c then 1 else 0) := by
  rw [List.count_append]
  by_cases hdc : d = c
  · rw [if_pos hdc, hdc]
    simp
  · rw [if_neg hdc]
    have hz : List.count c [d] = 0 := by
      rw [List.count_eq_zero]
      simp only [List.mem_singleton]
      exact fun he => hdc he.symm
    omega

theorem inv_submitUpdate {s : GameState} (inv : Inv s) (pid : ℕ) (a b : ℤ) :
    Inv (submitUpdate s pid a b) := by
  have hcode : ∀ p, (submitMark pid a b s.clock p).roomCode = p.roomCode :=
    submitMark_roomCode pid a b s.clock
  have hpid : ∀ p, (submitMark pid a b s.clock p).pid = p.pid :=
    submitMark_pid pid a b s.clock
  constructor
  · exact inv.roomsNodup
  · show ((s.players.map (submitMark pid a b s.clock)).map Player.pid).Nodup
    rw [pids_map _ hpid]
    exact inv.pidsNodup
  · intro q hq
    obtain ⟨q0, hq0, hqq⟩ := List.mem_map.mp hq
    show q.pid < s.nextPid
    rw [← hqq, hpid]
    exact inv.pidsLt q0 hq0
  · intro q hq
    obtain ⟨q0, hq0, hqq⟩ := List.mem_map.mp hq
    obtain ⟨r, hr, hrc⟩ := inv.fk q0 hq0
    refine ⟨r, hr, ?_⟩
    rw [← hqq, hcode]
    exact hrc
  · exact inv.maxLB
  · intro r hr
    show countIn r.code (s.players.map (submitMark pid a b s.clock)) ≤ r.maxPlayers
    rw [countIn_map _ _ hcode]
    exact inv.capacity r hr
  · intro r hr hready
    show countIn r.code (s.players.map (submitMark pid a b s.clock)) = r.maxPlayers
    rw [countIn_map _ _ hcode]
    exact inv.readyCount r hr hready
  · exact inv.finOnce
  · intro r hr
    show r.status = STATUS_COMPLETED ↔ 1 ≤ finCount s r.code
    exact inv.statusCompleted r hr
  · intro c hc
    exact inv.finHasRoom c hc
  · intro r hr hcomp
    obtain ⟨hcount, hsub⟩ := inv.completedFull r hr hcomp
    constructor
    · show countIn r.code (s.players.map (submitMark pid a b s.clock)) = r.maxPlayers
      rw [countIn_map _ _ hcode]
      exact hcount
    · intro q hq hqc
      obtain ⟨q0, hq0, hqq⟩ := List.mem_map.mp hq
      by_cases hq0pid : q0.pid = pid
      · rw [← hqq]
        unfold submitMark
        rw [if_pos hq0pid]
        simp
      · have hqeq : q = q0 := by rw [← hqq, submitMark_of_ne _ _ _ hq0pid]
        rw [hqeq] at hqc
        rw [hqeq]
        exact hsub q0 hq0 hqc

theorem inv_finalize {s1 s2 : GameState} {room : Room} {result : GameResult}
    (inv1 : Inv s1) (hroomMem : room ∈ s1.rooms)
    (hnc : room.status ≠ STATUS_COMPLETED)
    (hall : all_players_submitted s1 room = true)
    (h : finalize_room s1 room = .ok (s2, result)) : Inv s2 := by
  obtain ⟨hcalc, hs2⟩ := finalize_ok_inv h
  have hallinv : countIn room.code s1.players = room.maxPlayers ∧
      2 ≤ countIn room.code s1.players ∧
      countSubIn room.code s1.players = countIn room.code s1.players := by
    unfold all_players_submitted at hall
    by_cases hcond : countPlayers s1 room.code < room.maxPlayers ∨ countPlayers s1 room.code < 2
    · rw [if_pos hcond] at hall
      exact Bool.noConfusion hall
    · rw [if_neg hcond] at hall
      push_neg at hcond
      have hcap : countIn room.code s1.players ≤ room.maxPlayers := inv1.capacity room hroomMem
      have h1 : countPlayers s1 room.code = countIn room.code s1.players := rfl
      have heq : countSubIn room.code s1.players = countPlayers s1 room.code :=
        of_decide_eq_true hall
      obtain ⟨hc1, hc2⟩ := hcond
      refine ⟨by omega, by omega, by omega⟩
  have hsubAll : ∀ p ∈ s1.players, p.roomCode = room.code → p.submittedAt ≠ none :=
    all_of_countSubIn_eq _ _ hallinv.2.2
  have hfin0 : finCount s1 room.code = 0 := by
    by_contra hne
    exact hnc ((inv1.statusCompleted room hroomMem).mpr (Nat.one_le_iff_ne_zero.mpr hne))
  subst hs2
  have hcodePM : ∀ p, (payMark result p).roomCode = p.roomCode := payMark_roomCode result
  have hpidPM : ∀ p, (payMark result p).pid = p.pid := payMark_pid result
  constructor
  · show ((s1.rooms.map (updStatus room.code STATUS_COMPLETED)).map Room.code).Nodup
    rw [codes_map_updStatus]
    exact inv1.roomsNodup
  · show ((s1.players.map (payMark result)).map Player.pid).Nodup
    rw [pids_map _ hpidPM]
    exact inv1.pidsNodup
  · intro q hq
    obtain ⟨q0, hq0, hqq⟩ := List.mem_map.mp hq
    show q.pid < s1.nextPid
    rw [← hqq, hpidPM]
    exact inv1.pidsLt q0 hq0
  · intro q hq
    obtain ⟨q0, hq0, hqq⟩ := List.mem_map.mp hq
    obtain ⟨r, hr, hrc⟩ := inv1.fk q0 hq0
    refine ⟨updStatus room.code STATUS_COMPLETED r, List.mem_map_of_mem _ hr, ?_⟩
    rw [updStatus_code, ← hqq, hcodePM]
    exact hrc
  · intro r' hr'
    obtain ⟨r, hr, hrr⟩ := List.mem_map.mp hr'
    rw [← hrr, updStatus_max]
    exact inv1.maxLB r hr
  · intro r' hr'
    obtain ⟨r, hr, hrr⟩ := List.mem_map.mp hr'
    subst hrr
    show countIn (updStatus room.code STATUS_COMPLETED r).code (s1.players.map (payMark result))
      ≤ (updStatus room.code STATUS_COMPLETED r).maxPlayers
    rw [updStatus_code, updStatus_max, countIn_map _ _ hcodePM]
    exact inv1.capacity r hr
  · intro r' hr' hready
    obtain ⟨r, hr, hrr⟩ := List.mem_map.mp hr'
    subst hrr
    by_cases hc : r.code = room.code
    · rw [updStatus_status_of_code _ hc] at hready
      exact absurd hready (show STATUS_COMPLETED ≠ STATUS_READY by decide)
    · rw [updStatus_of_ne _ hc] at hready ⊢
      show countIn r.code (s1.players.map (payMark result)) = r.maxPlayers
      rw [countIn_map _ _ hcodePM]
      exact inv1.readyCount r hr hready
  · intro c
    show (s1.finalized ++ [room.code]).count c ≤ 1
    rw [finCount_append_one]
    have hle : s1.finalized.count c ≤ 1 := inv1.finOnce c
    by_cases hdc : room.code = c
    · rw [if_pos hdc]
      have hz : s1.finalized.count c = 0 := by
        have : finCount s1 c = 0 := hdc ▸ hfin0
        exact this
      omega
    · rw [if_neg hdc]
      omega
  · intro r' hr'
    obtain ⟨r, hr, hrr⟩ := List.mem_map.mp hr'
    subst hrr
    show (updStatus room.code STATUS_COMPLETED r).status = STATUS_COMPLETED ↔
      1 ≤ (s1.finalized ++ [room.code]).count (updStatus room.code STATUS_COMPLETED r).code
    rw [updStatus_code, finCount_append_one]
    by_cases hc : r.code = room.code
    · rw [updStatus_status_of_code _ hc, if_pos hc.symm]
      constructor
      · intro _
        omega
      · intro _
        rfl
    · rw [updStatus_of_ne _ hc, if_neg (fun he => hc he.symm)]
      have hiff : r.status = STATUS_COMPLETED ↔ 1 ≤ s1.finalized.count r.code :=
        inv1.statusCompleted r hr
      constructor
      · intro hcm
        have := hiff.mp hcm
        omega
      · intro hge
        apply hiff.mpr
        omega
  · intro c hc
    show ∃ r' ∈ s1.rooms.map (updStatus room.code STATUS_COMPLETED), r'.code = c
    by_cases hcc : c = room.code
    · refine ⟨updStatus room.code STATUS_COMPLETED room,
        List.mem_map_of_mem _ hroomMem, ?_⟩
      rw [updStatus_code]
      exact hcc.symm
    · have hc3 : (1:ℕ) ≤ (s1.finalized ++ [room.code]).count c := hc
      rw [finCount_append_one, if_neg (fun he => hcc he.symm)] at hc3
      have hc2 : 1 ≤ finCount s1 c := by
        show 1 ≤ s1.finalized.count c
        omega
      obtain ⟨r, hr, hrc⟩ := inv1.finHasRoom c hc2
      exact ⟨updStatus room.code STATUS_COMPLETED r, List.mem_map_of_mem _ hr,
        (updStatus_code _ _ r).trans hrc⟩
  · intro r' hr' hcomp
    obtain ⟨r, hr, hrr⟩ := List.mem_map.mp hr'
    subst hrr
    by_cases hc : r.code = room.code
    · have hr_room : r = room := code_unique inv1.roomsNodup hr hroomMem (by rw [hc])
      constructor
      · show countIn (updStatus room.code STATUS_COMPLETED r).code
          (s1.players.map (payMark result)) = (updStatus room.code STATUS_COMPLETED r).maxPlayers
        rw [updStatus_code, updStatus_max, countIn_map _ _ hcodePM, hc, hr_room]
        exact hallinv.1
      · intro q hq hqc
        obtain ⟨q0, hq0, hqq⟩ := List.mem_map.mp hq
        have hq0c : q0.roomCode = room.code := by
          have h1 : q.roomCode = r.code := by
            rw [hqc, updStatus_code]
          rw [← hqq, hcodePM] at h1
          rw [h1, hc]
        rw [← hqq, payMark_submittedAt]
        exact hsubAll q0 hq0 hq0c
    · rw [updStatus_of_ne _ hc] at hcomp
      obtain ⟨hcount2, hsub2⟩ := inv1.completedFull r hr hcomp
      constructor
      · show countIn (updStatus room.code STATUS_COMPLETED r).code
          (s1.players.map (payMark result)) = (updStatus room.code STATUS_COMPLETED r).maxPlayers
        rw [updStatus_code, updStatus_max, countIn_map _ _ hcodePM]
        exact hcount2
      · intro q hq hqc
        obtain ⟨q0, hq0, hqq⟩ := List.mem_map.mp hq
        have hq0c : q0.roomCode = r.code := by
          have h1 : q.roomCode = r.code := by
            rw [hqc, updStatus_code]
          rw [← hqq, hcodePM] at h1
          exact h1
        rw [← hqq, payMark_submittedAt]
        exact hsub2 q0 hq0 hq0c

theorem inv_submit {s s' : GameState} {code : String} {pid : ℕ} {a b : ℤ}
    {p : Player} {res : Option GameResult} (inv : Inv s)
    (h : submit_allocation s code pid a b = .ok (s', p, res)) : Inv s' := by
  obtain ⟨hab, player, room, hfp, hpc, hfr, h2c, hsubNone, hp, hcase⟩ := submit_ok_inv h
  obtain ⟨hpMem, hpPid⟩ := findPid_some hfp
  obtain ⟨hroomMem, hroomCode⟩ := findRoom_some hfr
  have inv1 : Inv (submitUpdate s pid a b) := inv_submitUpdate inv pid a b
  rcases hcase with ⟨result, hall, hfin, hres⟩ | ⟨hnall, hs, hres⟩
  · have hroomMem1 : room ∈ (submitUpdate s pid a b).rooms := hroomMem
    have hnc : room.status ≠ STATUS_COMPLETED := by
      intro hcomp
      have := (inv.completedFull room hroomMem hcomp).2 player hpMem (hpc.trans hroomCode.symm)
      exact this hsubNone
    exact inv_finalize inv1 hroomMem1 hnc hall hfin
  · subst hs
    exact inv1

theorem reachable_inv {s : GameState} (h : Reachable s) : Inv s := by
  induction h with
  | init => exact inv_init
  | step hr hstep ih =>
    cases hstep with
    | create code m h2 h4 hfresh => exact inv_create ih h2 hfresh
    | join code name s2 p hj => exact inv_join ih hj
    | submit code pid a b s2 p res hsub => exact inv_submit ih hsub
    | leave code pid s2 out hl => exact inv_leave ih hl

/-! ### Coordinator claims -/

/-- C3: in every reachable state no room's player count exceeds its
`max_players`, and joining a room whose player count has reached
`max_players` fails with the 400 "Room is full" conflict (the returned
error carries no new state, so no player is created). -/
theorem c3_capacity_invariant (s : GameState) (hreach : Reachable s) :
    (∀ r ∈ s.rooms, countPlayers s r.code ≤ r.maxPlayers) ∧
    (∀ (r : Room) (name : String), r ∈ s.rooms → r.maxPlayers ≤ countPlayers s r.code →
      join_room s r.code name = .error ⟨400, "Room is full"⟩) := by
  have inv := reachable_inv hreach
  refine ⟨inv.capacity, ?_⟩
  intro r name hr hle
  have hfr : findRoom r.code s.rooms = some r := findRoom_of_mem inv.roomsNodup hr
  unfold join_room
  rw [hfr]
  simp only []
  rw [if_pos hle]

/-- C7: in every reachable state a Ready room has exactly `max_players`
players and has never been finalized; a successful join leaves the room
Ready exactly when the join brought the count to `max_players`; and a
successful leave from a Ready room regresses it to Waiting. -/
theorem c7_ready_status_invariant (s : GameState) (hreach : Reachable s) :
    (∀ r ∈ s.rooms, r.status = STATUS_READY →
        countPlayers s r.code = r.maxPlayers ∧ finCount s r.code = 0) ∧
    (∀ (code name : String) (s' : GameState) (p : Player),
        join_room s code name = .ok (s', p) →
        ∀ r' ∈ s'.rooms, r'.code = code →
          (r'.status = STATUS_READY ↔ countPlayers s' code = r'.maxPlayers)) ∧
    (∀ (code : String) (pid : ℕ) (s' : GameState) (out : Player × Room),
        leave_room s code pid = .ok (s', out) →
        ∀ r ∈ s.rooms, r.code = code → r.status = STATUS_READY →
          ∀ r' ∈ s'.rooms, r'.code = code → r'.status = STATUS_WAITING) := by
  have inv := reachable_inv hreach
  refine ⟨?_, ?_, ?_⟩
  · intro r hr hready
    refine ⟨inv.readyCount r hr hready, ?_⟩
    by_contra hne
    have hcomp := (inv.statusCompleted r hr).mpr (Nat.one_le_iff_ne_zero.mpr hne)
    exact absurd (hready.symm.trans hcomp) (show STATUS_READY ≠ STATUS_COMPLETED by decide)
  · intro code name s' p h r' hr' hrc'
    obtain ⟨room, hfr, hlt, hp, hcase⟩ := join_ok_inv h
    obtain ⟨hroomMem, hroomCode⟩ := findRoom_some hfr
    have hltIn : countIn code s.players < room.maxPlayers := hlt
    rcases hcase with ⟨hfill, hs⟩ | ⟨hnofill, hs⟩
    · subst hs
      obtain ⟨r0, hr0, hrr0⟩ := List.mem_map.mp hr'
      have hr0code : r0.code = code := by
        rw [← hrc', ← hrr0, updStatus_code]
      have hr0room : r0 = room :=
        code_unique inv.roomsNodup hr0 hroomMem (hr0code.trans hroomCode.symm)
      have hstatus : r'.status = STATUS_READY := by
        rw [← hrr0]
        exact updStatus_status_of_code _ hr0code
      have hmax : r'.maxPlayers = room.maxPlayers := by
        rw [← hrr0, updStatus_max, hr0room]
      have hcnt : countIn code (s.players ++ [newPlayer s code name])
          = countIn code s.players + 1 := by
        rw [countIn_join, if_pos rfl]
      have hfillIn : countIn code s.players + 1 = room.maxPlayers := hfill
      show r'.status = STATUS_READY
        ↔ countIn code (s.players ++ [newPlayer s code name]) = r'.maxPlayers
      refine iff_of_true hstatus ?_
      rw [hcnt, hmax]
      exact hfillIn
    · subst hs
      have hr0room : r' = room := code_unique inv.roomsNodup hr' hroomMem (hrc'.trans hroomCode.symm)
      have hcnt : countIn code (s.players ++ [newPlayer s code name])
          = countIn code s.players + 1 := by
        rw [countIn_join, if_pos rfl]
      have hnotReady : room.status ≠ STATUS_READY := by
        intro hc
        have h2 : countIn room.code s.players = room.maxPlayers := inv.readyCount room hroomMem hc
        rw [hroomCode] at h2
        omega
      have hnofillIn : countIn code s.players + 1 ≠ room.maxPlayers := hnofill
      show r'.status = STATUS_READY
        ↔ countIn code (s.players ++ [newPlayer s code name]) = r'.maxPlayers
      apply iff_of_false
      · rw [hr0room]
        exact hnotReady
      · rw [hcnt, hr0room]
        exact hnofillIn
  · intro code pid s' out h r hr hrc hready r' hr' hrc'
    obtain ⟨player, room, hfp, hpc, hfr, hnc, hout, hcase⟩ := leave_ok_inv h
    obtain ⟨hpMem, hpPid⟩ := findPid_some hfp
    obtain ⟨hroomMem, hroomCode⟩ := findRoom_some hfr
    have hr_room : r = room := code_unique inv.roomsNodup hr hroomMem (hrc.trans hroomCode.symm)
    have hroomReady : room.status = STATUS_READY := hr_room ▸ hready
    rcases hcase with ⟨hdrop, _, hs⟩ | ⟨hncond, hs⟩
    · subst hs
      obtain ⟨r0, hr0, hrr0⟩ := List.mem_map.mp hr'
      have hr0code : r0.code = code := by
        rw [← hrc', ← hrr0, updStatus_code]
      rw [← hrr0]
      exact updStatus_status_of_code _ hr0code
    · exfalso
      apply hncond
      refine ⟨?_, hroomReady⟩
      have hcnt := countIn_removePid inv.pidsNodup hpMem code
      rw [hpPid] at hcnt
      rw [hpc, if_pos rfl] at hcnt
      have hcap : countIn code s.players ≤ room.maxPlayers := by
        have := inv.capacity room hroomMem
        rw [hroomCode] at this
        exact this
      have hmax2 : 2 ≤ room.maxPlayers := inv.maxLB room hroomMem
      have hrc2 : countIn room.code s.players = room.maxPlayers := inv.readyCount room hroomMem hroomReady
      rw [hroomCode] at hrc2
      omega

/-- C4: `submit_allocation` checks its guards in order: allocation sum 422,
unknown or mismatched player 404, fewer than two players 400, already
submitted 400 (so `submitted_at` is only ever written when it was null and
a second submit always fails); and a successful call writes
`allocation_a`, `allocation_b` and `submitted_at` on that player. -/
theorem c4_submit_error_cases (s : GameState) (code : String) (pid : ℕ) (a b : ℤ) :
    (a + b ≠ 100 → submit_allocation s code pid a b = .error ⟨422, "A + B must equal 100"⟩) ∧
    (a + b = 100 → findPid pid s.players = none →
        submit_allocation s code pid a b = .error ⟨404, "Player not found"⟩) ∧
    (∀ q, a + b = 100 → findPid pid s.players = some q → q.roomCode ≠ code →
        submit_allocation s code pid a b = .error ⟨404, "Player not found"⟩) ∧
    (∀ q room, a + b = 100 → findPid pid s.players = some q → q.roomCode = code →
        findRoom code s.rooms = some room → countPlayers s code < 2 →
        submit_allocation s code pid a b = .error ⟨400, "Need at least two players"⟩) ∧
    (∀ q room, a + b = 100 → findPid pid s.players = some q → q.roomCode = code →
        findRoom code s.rooms = some room → 2 ≤ countPlayers s code → q.submittedAt ≠ none →
        submit_allocation s code pid a b = .error ⟨400, "Allocation already submitted"⟩) ∧
    (∀ (s' : GameState) (p : Player) (res : Option GameResult),
        submit_allocation s code pid a b = .ok (s', p, res) →
        ∃ q, findPid pid s.players = some q ∧ q.submittedAt = none ∧
          p = { q with allocA := some a, allocB := some b, submittedAt := some s.clock } ∧
          ∃ q', findPid pid s'.players = some q' ∧ q'.allocA = some a ∧
            q'.allocB = some b ∧ q'.submittedAt = some s.clock) := by
  refine ⟨?_, ?_, ?_, ?_, ?_, ?_⟩
  · intro hab
    unfold submit_allocation
    rw [if_pos hab]
  · intro hab hnone
    unfold submit_allocation
    rw [if_neg (not_not_intro hab), hnone]
  · intro q hab hq hqc
    unfold submit_allocation
    rw [if_neg (not_not_intro hab), hq]
    simp only []
    rw [if_pos hqc]
  · intro q room hab hq hqc hroom hlt
    unfold submit_allocation
    rw [if_neg (not_not_intro hab), hq]
    simp only []
    rw [if_neg (not_not_intro hqc), hroom]
    simp only []
    rw [if_pos hlt]
  · intro q room hab hq hqc hroom hge hsub
    unfold submit_allocation
    rw [if_neg (not_not_intro hab), hq]
    simp only []
    rw [if_neg (not_not_intro hqc), hroom]
    simp only []
    rw [if_neg (not_lt.mpr hge), if_pos hsub]
  · intro s' p res h
    obtain ⟨hab, player, room, hfp, hpc, hfr, h2c, hsubNone, hp, hcase⟩ := submit_ok_inv h
    obtain ⟨hpMem, hpPid⟩ := findPid_some hfp
    refine ⟨player, hfp, hsubNone, hp, ?_⟩
    have hfind1 : findPid pid ((submitUpdate s pid a b).players)
        = some { player with allocA := some a, allocB := some b, submittedAt := some s.clock } := by
      show findPid pid (s.players.map (submitMark pid a b s.clock)) = _
      rw [findPid_map _ (submitMark_pid pid a b s.clock), hfp]
      show some (submitMark pid a b s.clock player) = _
      unfold submitMark
      rw [if_pos hpPid]
    rcases hcase with ⟨result, hall, hfin, hres⟩ | ⟨hnall, hs, hres⟩
    · obtain ⟨hcalc, hs2⟩ := finalize_ok_inv hfin
      subst hs2
      refine ⟨payMark result
        { player with allocA := some a, allocB := some b, submittedAt := some s.clock },
        ?_, ?_, ?_, ?_⟩
      · show findPid pid ((submitUpdate s pid a b).players.map (payMark result)) = _
        rw [findPid_map _ (payMark_pid result), hfind1]
        rfl
      · rw [payMark_allocA]
      · rw [payMark_allocB]
      · rw [payMark_submittedAt]
    · subst hs
      exact ⟨_, hfind1, rfl, rfl, rfl⟩

/-- C2: in every reachable state the finalize path has run at most once
per room code; a successful submission triggers finalization exactly when,
after the submission, the room's player count equals `max_players` and all
its players have non-null `submitted_at`; and when it triggers, the room's
status becomes Completed, the finalization log for the code grows by
exactly one, and every player of the room has its payout written from the
returned result. -/
theorem c2_finalize_effectively_once (s : GameState) (hreach : Reachable s) :
    (∀ c : String, finCount s c ≤ 1) ∧
    (∀ (code : String) (pid : ℕ) (a b : ℤ) (s' : GameState) (p : Player)
        (res : Option GameResult),
      submit_allocation s code pid a b = .ok (s', p, res) →
      ((res ≠ none) ↔
        (∃ r ∈ s.rooms, r.code = code ∧ countPlayers s' code = r.maxPlayers ∧
          ∀ q ∈ s'.players, q.roomCode = code → q.submittedAt ≠ none)) ∧
      (∀ result, res = some result →
        (∀ r' ∈ s'.rooms, r'.code = code → r'.status = STATUS_COMPLETED) ∧
        finCount s' code = finCount s code + 1 ∧
        (∀ q ∈ s'.players, q.roomCode = code →
          ∃ pr ∈ result.players, pr.player_id = q.pid ∧ q.payout = some pr.payout))) := by
  have inv := reachable_inv hreach
  refine ⟨inv.finOnce, ?_⟩
  intro code pid a b s' p res h
  obtain ⟨hab, player, room, hfp, hpc, hfr, h2c, hsubNone, hp, hcase⟩ := submit_ok_inv h
  obtain ⟨hpMem, hpPid⟩ := findPid_some hfp
  obtain ⟨hroomMem, hroomCode⟩ := findRoom_some hfr
  have hcnt1 : countIn code (submitUpdate s pid a b).players = countIn code s.players := by
    show countIn code (s.players.map (submitMark pid a b s.clock)) = countIn code s.players
    rw [countIn_map _ _ (submitMark_roomCode pid a b s.clock)]
  have hcapC : countIn code s.players ≤ room.maxPlayers := by
    have := inv.capacity room hroomMem
    rw [hroomCode] at this
    exact this
  have hmaxLB : 2 ≤ room.maxPlayers := inv.maxLB room hroomMem
  have hcodesEq : countIn room.code (submitUpdate s pid a b).players
      = countIn code (submitUpdate s pid a b).players := by
    rw [hroomCode]
  rcases hcase with ⟨result, hall, hfin, hres⟩ | ⟨hnall, hs, hres⟩
  · subst hres
    obtain ⟨hcalc, hs2⟩ := finalize_ok_inv hfin
    have hallinv : countIn room.code (submitUpdate s pid a b).players = room.maxPlayers ∧
        countSubIn room.code (submitUpdate s pid a b).players
          = countIn room.code (submitUpdate s pid a b).players := by
      unfold all_players_submitted at hall
      by_cases hcond : countPlayers (submitUpdate s pid a b) room.code < room.maxPlayers ∨
          countPlayers (submitUpdate s pid a b) room.code < 2
      · rw [if_pos hcond] at hall
        exact Bool.noConfusion hall
      · rw [if_neg hcond] at hall
        push_neg at hcond
        have heq : countSubIn room.code (submitUpdate s pid a b).players
            = countPlayers (submitUpdate s pid a b) room.code := of_decide_eq_true hall
        have h1 : countPlayers (submitUpdate s pid a b) room.code
            = countIn room.code (submitUpdate s pid a b).players := rfl
        have h2 : countIn room.code (submitUpdate s pid a b).players ≤ room.maxPlayers := by
          rw [hcodesEq, hcnt1]
          exact hcapC
        obtain ⟨hc1, _⟩ := hcond
        exact ⟨by omega, by omega⟩
    have hsubAll1 : ∀ q ∈ (submitUpdate s pid a b).players,
        q.roomCode = room.code → q.submittedAt ≠ none :=
      all_of_countSubIn_eq _ _ hallinv.2
    subst hs2
    constructor
    · apply iff_of_true
      · exact Option.some_ne_none result
      · refine ⟨room, hroomMem, hroomCode, ?_, ?_⟩
        · show countIn code ((submitUpdate s pid a b).players.map (payMark result))
            = room.maxPlayers
          rw [countIn_map _ _ (payMark_roomCode result), ← hroomCode]
          exact hallinv.1
        · intro q hq hqc
          obtain ⟨q0, hq0, hqq⟩ := List.mem_map.mp hq
          rw [← hqq, payMark_roomCode] at hqc
          rw [← hqq, payMark_submittedAt]
          exact hsubAll1 q0 hq0 (hqc.trans hroomCode.symm)
    · intro result' hres'
      have hres'' : result = result' := by
        injection hres' with h'
      subst hres''
      refine ⟨?_, ?_, ?_⟩
      · intro r' hr' hrc'
        obtain ⟨r0, hr0, hrr0⟩ := List.mem_map.mp hr'
        have hr0c : r0.code = room.code := by
          rw [← hrr0, updStatus_code] at hrc'
          exact hrc'.trans hroomCode.symm
        rw [← hrr0]
        exact updStatus_status_of_code _ hr0c
      · show (s.finalized ++ [room.code]).count code = s.finalized.count code + 1
        rw [finCount_append_one, if_pos hroomCode]
      · intro q hq hqc
        obtain ⟨q0, hq0, hqq⟩ := List.mem_map.mp hq
        rw [← hqq, payMark_roomCode] at hqc
        have hq0mem : q0 ∈ roomPlayers room.code (submitUpdate s pid a b).players :=
          (mem_roomPlayers _ _ _).mpr ⟨hq0, hqc.trans hroomCode.symm⟩
        obtain ⟨hresEq, hne⟩ := calc_ok_inv hcalc
        have hrec : ∃ pr ∈ result.players, pr.player_id = q0.pid := by
          rw [hresEq]
          exact ⟨_, List.mem_map_of_mem _ hq0mem, rfl⟩
        obtain ⟨pr0, hpr0mem, hpr0id⟩ := hrec
        obtain ⟨pr, hprEq⟩ := findPayout_isSome hpr0mem hpr0id
        obtain ⟨hprMem, hprId⟩ := findPayout_some hprEq
        refine ⟨pr, hprMem, ?_, ?_⟩
        · rw [hprId, ← hqq, payMark_pid]
        · rw [← hqq]
          unfold payMark
          rw [hprEq]
  · subst hres
    subst hs
    constructor
    · apply iff_of_false
      · exact fun hne => hne rfl
      · rintro ⟨r, hrMem, hrCode, hcnt, hallsub⟩
        have hr_room : r = room := code_unique inv.roomsNodup hrMem hroomMem
          (hrCode.trans hroomCode.symm)
        have hcntIn : countIn code (submitUpdate s pid a b).players = room.maxPlayers := by
          have h3 : countPlayers (submitUpdate s pid a b) code = r.maxPlayers := hcnt
          rw [hr_room] at h3
          exact h3
        have htrue : all_players_submitted (submitUpdate s pid a b) room = true := by
          unfold all_players_submitted
          have hcond : ¬(countPlayers (submitUpdate s pid a b) room.code < room.maxPlayers ∨
              countPlayers (submitUpdate s pid a b) room.code < 2) := by
            push_neg
            have h1 : countPlayers (submitUpdate s pid a b) room.code
                = countIn room.code (submitUpdate s pid a b).players := rfl
            rw [h1, hcodesEq, hcntIn]
            omega
          rw [if_neg hcond]
          apply decide_eq_true
          have hsubeq : countSubIn room.code (submitUpdate s pid a b).players
              = countIn room.code (submitUpdate s pid a b).players :=
            countSubIn_eq_of_all _ _
              (fun q hq hqc => hallsub q hq (hqc.trans hroomCode))
          exact hsubeq
        rw [hnall] at htrue
        exact Bool.noConfusion htrue
    · intro result' hres'
      exact Option.noConfusion hres'

/-- C6: in every reachable state, a Completed room is terminal: leaving it
fails with the 400 "Game already completed" conflict, submitting for any of
its players fails, joining it fails with the 400 "Room is full" conflict
(each error leaving the state unchanged, so nothing is deleted or
created), and no coordinator step changes the room's row or the set of its
players. -/
theorem c6_completed_terminal (s : GameState) (hreach : Reachable s) :
    ∀ r ∈ s.rooms, r.status = STATUS_COMPLETED →
      (∀ q ∈ s.players, q.roomCode = r.code →
          leave_room s r.code q.pid = .error ⟨400, "Game already completed"⟩) ∧
      (∀ q ∈ s.players, q.roomCode = r.code → ∀ a b : ℤ,
          ∃ e, submit_allocation s r.code q.pid a b = .error e) ∧
      (∀ name, join_room s r.code name = .error ⟨400, "Room is full"⟩) ∧
      (∀ s2, Step s s2 →
          r ∈ s2.rooms ∧ roomPlayers r.code s2.players = roomPlayers r.code s.players) := by
  have inv := reachable_inv hreach
  intro r hr hcomp
  obtain ⟨hcount, hsubmitted⟩ := inv.completedFull r hr hcomp
  have hcountIn : countIn r.code s.players = r.maxPlayers := hcount
  have hmax2 : 2 ≤ r.maxPlayers := inv.maxLB r hr
  have hfrr : findRoom r.code s.rooms = some r := findRoom_of_mem inv.roomsNodup hr
  have hjoinfail : ∀ name, join_room s r.code name = .error ⟨400, "Room is full"⟩ := by
    intro name
    unfold join_room
    rw [hfrr]
    simp only []
    rw [if_pos (le_of_eq hcount.symm)]
  have hleavefail : ∀ q ∈ s.players, q.roomCode = r.code →
      leave_room s r.code q.pid = .error ⟨400, "Game already completed"⟩ := by
    intro q hq hqc
    have hfq : findPid q.pid s.players = some q := findPid_of_mem inv.pidsNodup hq
    unfold leave_room
    rw [hfq]
    simp only []
    rw [if_neg (not_not_intro hqc), hfrr]
    simp only []
    rw [if_pos hcomp]
  have hsubmitfail : ∀ q ∈ s.players, q.roomCode = r.code → ∀ a b : ℤ,
      ∃ e, submit_allocation s r.code q.pid a b = .error e := by
    intro q hq hqc a b
    by_cases hab : a + b ≠ 100
    · exact ⟨_, by unfold submit_allocation; rw [if_pos hab]⟩
    · have hfq : findPid q.pid s.players = some q := findPid_of_mem inv.pidsNodup hq
      have hge : 2 ≤ countPlayers s r.code := by
        rw [hcount]
        exact hmax2
      refine ⟨⟨400, "Allocation already submitted"⟩, ?_⟩
      unfold submit_allocation
      rw [if_neg hab, hfq]
      simp only []
      rw [if_neg (not_not_intro hqc), hfrr]
      simp only []
      rw [if_neg (not_lt.mpr hge), if_pos (hsubmitted q hq hqc)]
  refine ⟨hleavefail, hsubmitfail, hjoinfail, ?_⟩
  intro s2 hstep
  cases hstep with
  | create code m h2 h4 hfresh =>
    exact ⟨List.mem_append_left _ hr, rfl⟩
  | join code name s2 p2 hj =>
    have hcne : code ≠ r.code := by
      intro he
      rw [he] at hj
      rw [hjoinfail name] at hj
      exact Except.noConfusion hj
    obtain ⟨room, hfr, hlt, hp, hcase⟩ := join_ok_inv hj
    have hplayers : roomPlayers r.code (s.players ++ [newPlayer s code name])
        = roomPlayers r.code s.players := by
      rw [roomPlayers_append]
      have hnewc : (newPlayer s code name).roomCode ≠ r.code := hcne
      simp [roomPlayers, hnewc]
    rcases hcase with ⟨hfill, hs⟩ | ⟨hnofill, hs⟩
    · subst hs
      constructor
      · show r ∈ s.rooms.map (updStatus code STATUS_READY)
        have hupd : updStatus code STATUS_READY r = r :=
          updStatus_of_ne _ (fun he => hcne he.symm)
        rw [← hupd]
        exact List.mem_map_of_mem _ hr
      · exact hplayers
    · subst hs
      exact ⟨hr, hplayers⟩
  | submit code pid a b s2 p2 res hsub =>
    obtain ⟨hab, player, room, hfp, hpc, hfr, h2c, hsubNone, hp2, hcase⟩ := submit_ok_inv hsub
    obtain ⟨hpMem, hpPid⟩ := findPid_some hfp
    have hcne : code ≠ r.code := by
      intro he
      exact (hsubmitted player hpMem (hpc.trans he)) hsubNone
    have hpcne : ∀ q ∈ s.players, q.roomCode = r.code → q.pid ≠ pid := by
      intro q hq hqc he
      have hq_eq : q = player := pid_unique inv.pidsNodup hq hpMem (he.trans hpPid.symm)
      rw [hq_eq] at hqc
      exact hcne (hpc.symm.trans hqc)
    have hplayers1 : roomPlayers r.code ((submitUpdate s pid a b).players)
        = roomPlayers r.code s.players := by
      show roomPlayers r.code (s.players.map (submitMark pid a b s.clock)) = _
      apply roomPlayers_map_invariant _ _ (submitMark_roomCode pid a b s.clock)
      intro q hq hqc
      exact submitMark_of_ne _ _ _ (hpcne q hq hqc)
    rcases hcase with ⟨result, hall, hfin, hres⟩ | ⟨hnall, hs, hres⟩
    · obtain ⟨hcalc, hs2⟩ := finalize_ok_inv hfin
      subst hs2
      obtain ⟨hresEq, _⟩ := calc_ok_inv hcalc
      have hpids1 : ((submitUpdate s pid a b).players.map Player.pid).Nodup :=
        (inv_submitUpdate inv pid a b).pidsNodup
      have hroomCode : room.code = code := (findRoom_some hfr).2
      have hplayers2 : roomPlayers r.code ((submitUpdate s pid a b).players.map (payMark result))
          = roomPlayers r.code ((submitUpdate s pid a b).players) := by
        apply roomPlayers_map_invariant _ _ (payMark_roomCode result)
        intro q hq hqc
        unfold payMark
        have hnonepr : findPayout q.pid result.players = none := by
          apply findPayout_eq_none
          intro x hx he
          rw [hresEq] at hx
          obtain ⟨x0, hx0mem, hx0eq⟩ := List.mem_map.mp hx
          obtain ⟨hx0in, hx0code⟩ := (mem_roomPlayers _ _ _).mp hx0mem
          have hxid : x.player_id = x0.pid := by rw [← hx0eq]
          have hq_eq : x0 = q := pid_unique hpids1 hx0in hq (by rw [← hxid, he])
          rw [hq_eq, hqc] at hx0code
          exact hcne (hroomCode ▸ hx0code).symm
        rw [hnonepr]
      constructor
      · show r ∈ (submitUpdate s pid a b).rooms.map (updStatus room.code STATUS_COMPLETED)
        have hne : r.code ≠ room.code := fun he => hcne (he.trans hroomCode).symm
        have hupd : updStatus room.code STATUS_COMPLETED r = r := updStatus_of_ne _ hne
        rw [← hupd]
        exact List.mem_map_of_mem _ hr
      · show roomPlayers r.code ((submitUpdate s pid a b).players.map (payMark result))
          = roomPlayers r.code s.players
        rw [hplayers2, hplayers1]
    · subst hs
      exact ⟨hr, hplayers1⟩
  | leave code pid s2 out hl =>
    obtain ⟨player, room, hfp, hpc, hfr, hnc, hout, hcase⟩ := leave_ok_inv hl
    obtain ⟨hpMem, hpPid⟩ := findPid_some hfp
    have hroomCode : room.code = code := (findRoom_some hfr).2
    have hroomMem : room ∈ s.rooms := (findRoom_some hfr).1
    have hcne : code ≠ r.code := by
      intro he
      have hrm : room = r := code_unique inv.roomsNodup hroomMem hr (hroomCode.trans he)
      apply hnc
      rw [hrm]
      exact hcomp
    have hpcne : ∀ q ∈ s.players, q.roomCode = r.code → q.pid ≠ pid := by
      intro q hq hqc he
      have hq_eq : q = player := pid_unique inv.pidsNodup hq hpMem (he.trans hpPid.symm)
      rw [hq_eq] at hqc
      exact hcne (hpc.symm.trans hqc)
    have hplayersR : roomPlayers r.code (removePid pid s.players) = roomPlayers r.code s.players :=
      roomPlayers_removePid _ _ _ hpcne
    rcases hcase with ⟨hdrop, hready, hs⟩ | ⟨hncond, hs⟩
    · subst hs
      constructor
      · show r ∈ s.rooms.map (updStatus code STATUS_WAITING)
        have hupd : updStatus code STATUS_WAITING r = r :=
          updStatus_of_ne _ (fun he => hcne he.symm)
        rw [← hupd]
        exact List.mem_map_of_mem _ hr
      · exact hplayersR
    · subst hs
      exact ⟨hr, hplayersR⟩

/-! ### Reachability of the witness scenario -/

theorem reach_sW1 : Reachable sW1 :=
  Reachable.step Reachable.init
    (Step.create initState "R1" 2 (by decide) (by decide) (by decide))

theorem reach_sW2 : Reachable sW2 :=
  Reachable.step reach_sW1 (Step.join sW1 "R1" "alice" sW2 (newPlayer sW1 "R1" "alice") rfl)

theorem reach_sW3 : Reachable sW3 :=
  Reachable.step reach_sW2 (Step.join sW2 "R1" "bob" sW3 (newPlayer sW2 "R1" "bob") rfl)

theorem reach_sW4 : Reachable sW4 :=
  Reachable.step reach_sW3 (Step.submit sW3 "R1" 0 60 40 sW4
    { pid := 0, roomCode := "R1", displayName := "alice", allocA := some 60, allocB := some 40,
      payout := none, submittedAt := some 0 } none rfl)

theorem reach_sW5 : Reachable sW5 :=
  Reachable.step reach_sW4 (Step.submit sW4 "R1" 1 30 70 sW5 pW5 (some resW5) rfl)

/-- Witness for C3: in the two-player room `"R1"` with both seats taken,
the count is within the bound and a third join fails with "Room is full". -/
theorem c3_capacity_invariant_witness :
    countPlayers sW3 "R1" ≤ 2 ∧
    join_room sW3 "R1" "carol" = .error ⟨400, "Room is full"⟩ :=
  ⟨(c3_capacity_invariant sW3 reach_sW3).1 ⟨"R1", 2, STATUS_READY⟩ (by decide),
   (c3_capacity_invariant sW3 reach_sW3).2 ⟨"R1", 2, STATUS_READY⟩ "carol" (by decide) (by decide)⟩

/-- Witness for C7: the full room `"R1"` is Ready with exactly
`max_players` players and no finalization yet. -/
theorem c7_ready_status_invariant_witness :
    countPlayers sW3 "R1" = 2 ∧ finCount sW3 "R1" = 0 :=
  (c7_ready_status_invariant sW3 reach_sW3).1 ⟨"R1", 2, STATUS_READY⟩ (by decide) rfl

/-- Witness for C2: after the finalizing submission the room's
finalization count went from zero to one, and it never exceeds one. -/
theorem c2_finalize_effectively_once_witness :
    finCount sW5 "R1" ≤ 1 ∧ finCount sW5 "R1" = finCount sW4 "R1" + 1 :=
  ⟨(c2_finalize_effectively_once sW5 reach_sW5).1 "R1",
   (((c2_finalize_effectively_once sW4 reach_sW4).2 "R1" 1 30 70 sW5 pW5 (some resW5) rfl).2
      resW5 rfl).2.1⟩

/-- Witness for C4: a submission whose allocations sum to 110 fails with
the 422 validation error even though the room and player do not exist. -/
theorem c4_submit_error_cases_witness :
    submit_allocation initState "X" 0 60 50 = .error ⟨422, "A + B must equal 100"⟩ :=
  (c4_submit_error_cases initState "X" 0 60 50).1 (by decide)

/-- Witness for C6: joining the completed room `"R1"` fails with the
"Room is full" conflict. -/
theorem c6_completed_terminal_witness :
    join_room sW5 "R1" "eve" = .error ⟨400, "Room is full"⟩ :=
  ((c6_completed_terminal sW5 reach_sW5) ⟨"R1", 2, STATUS_COMPLETED⟩ (by decide) rfl).2.2.1 "eve"

/-- C10: the allocation-sum check of `submit_allocation` precedes the
player and room lookups: whenever `a + b ≠ 100` the call fails with the
422 validation error, for every store state, in particular when the player
id or room code does not exist. -/
theorem c10_validation_precedes_lookup (s : GameState) (code : String) (pid : ℕ) (a b : ℤ)
    (hab : a + b ≠ 100) :
    submit_allocation s code pid a b = .error ⟨422, "A + B must equal 100"⟩ := by
  unfold submit_allocation
  rw [if_pos hab]

/-- Witness for C10: on the empty store, where player 99 and room
`"NOPE"` are unknown, an invalid sum still yields the validation error. -/
theorem c10_validation_precedes_lookup_witness :
    findPid 99 initState.players = none ∧ findRoom "NOPE" initState.rooms = none ∧
    submit_allocation initState "NOPE" 99 60 50 = .error ⟨422, "A + B must equal 100"⟩ :=
  ⟨rfl, rfl, c10_validation_precedes_lookup initState "NOPE" 99 60 50 (by decide)⟩

end InvestGame
